import Mathlib

/-!
Verification development for the ACO (Ant System) engine of this repository.

The engine lives in model/aco_core.py (an unvectorized reference implementation)
and ANT-tsp-_demo-main/model/aco_core.py (a broadcast-optimized variant).
We shallowly embed both engines over exact rational arithmetic:

* floating point numbers are modelled by rationals;
* the library operations math.sqrt and float ** (power), whose float semantics
  are external to the repository, are abstracted as parameters (a NumOps
  record); theorems that need properties of them (sqrt 0 = 0, positivity, ...)
  take those properties as hypotheses;
* the numpy random generator is modelled by an abstract stream of draws in
  [0,1): the engine state stores the stream together with a cursor, and each
  rng.random() call reads the stream at the cursor and advances it.  The
  rng.choice call of the optimized engine (used only on the all-zero-score
  fallback) is abstracted as a parameter choiceFn;
* np.searchsorted(a, v, side := left) on a sorted ascending array returns the
  number of entries strictly below v; we embed it as countP (x < v);
* the wall-clock timing fields of the per-cycle statistics dictionary
  (time_construction, time_evaporation, time_deposit) are real-time
  measurements and are not part of the embedded statistics record, which
  carries the five data fields of the record described by the spec.

Matrices are embedded as functions over all naturals defined by the same
formula the source uses on indices below n; the source arrays are their
restrictions to indices below n.
-/

namespace ACO

/-- External float operations used by the engine: math/numpy sqrt and the
float power operator x ** y.  Their float semantics are outside the
repository, so they are abstract here. -/
structure NumOps where
  sqrt : ℚ → ℚ
  fpow : ℚ → ℚ → ℚ

/-- Cumulative sums of a list starting from base c (np.cumsum shifted by c;
the engine uses c = 0). -/
def cumsumFrom (c : ℚ) : List ℚ → List ℚ
  | [] => []
  | x :: xs => (c + x) :: cumsumFrom (c + x) xs

/-- np.cumsum. -/
def cumsum (l : List ℚ) : List ℚ := cumsumFrom 0 l

/-- np.searchsorted(a, v) with side left, on a sorted ascending array: the
number of entries strictly smaller than v. -/
def searchsortedLeft (l : List ℚ) (v : ℚ) : ℕ :=
  l.countP (fun x => decide (x < v))

/-- Python list.index: index of the first occurrence of a value. -/
def indexOfFirst (v : ℚ) (l : List ℚ) : ℕ :=
  l.findIdx (fun x => decide (x = v))

/-- Python min over a list of floats; None on the empty list, where CPython
raises ValueError instead of returning. -/
def listMin : List ℚ → Option ℚ
  | [] => none
  | x :: xs => some (xs.foldl min x)

/-- Minimum of a list of lengths viewed in ℚ with +∞ adjoined (float inf). -/
def minWOf (l : List ℚ) : WithTop ℚ :=
  l.foldr (fun x a => min (x : WithTop ℚ) a) ⊤

/-- tau[a][b] += d (a single in-place array addition). -/
def depositAt (tau : ℕ → ℕ → ℚ) (a b : ℕ) (d : ℚ) : ℕ → ℕ → ℚ :=
  fun i j => if i = a ∧ j = b then tau i j + d else tau i j

/-- One edge deposit of the reference engine: tau[a][b] += d followed by
tau[b][a] += d. -/
def depositEdge (tau : ℕ → ℕ → ℚ) (a b : ℕ) (d : ℚ) : ℕ → ℕ → ℚ :=
  depositAt (depositAt tau a b d) b a d

/-- The consecutive pairs of a tour list (tour[i], tour[i+1]). -/
def tourEdges (tour : List ℕ) : List (ℕ × ℕ) :=
  tour.zip tour.tail

/-- The per-cycle statistics record returned by run_cycle.  The source
dictionary additionally carries three wall-clock timing fields
(time_construction, time_evaporation, time_deposit); being real-time
measurements they are outside this embedding, which keeps the five data
fields (the per-cycle output record of the spec). -/
structure CycleStats where
  best_len_cycle : ℚ
  mean_len_cycle : ℚ
  best_len_global : WithTop ℚ
  best_tour_global : Option (List ℕ)
  all_lengths : List ℚ
deriving DecidableEq, Repr

/-- The mutable state of an ACOEngine object (both variants share it). -/
structure EngineState where
  ops : NumOps
  coords : List (ℚ × ℚ)
  alpha : ℚ
  beta : ℚ
  p : ℚ
  Q : ℚ
  m : ℕ
  dist : ℕ → ℕ → ℚ
  eta : ℕ → ℕ → ℚ
  tau : ℕ → ℕ → ℚ
  bestTourGlobal : Option (List ℕ)
  bestLenGlobal : WithTop ℚ
  rngStream : ℕ → ℚ
  rngIdx : ℕ

/-- self.n = len(self.coords). -/
def EngineState.n (s : EngineState) : ℕ := s.coords.length

/-- Coordinate lookup coords[i] (indices used by the engine are below n). -/
def coordAt (coords : List (ℚ × ℚ)) (i : ℕ) : ℚ × ℚ := coords.getD i (0, 0)

/-- _compute_distance_matrix of the reference engine: zero diagonal,
sqrt(dx^2 + dy^2) off the diagonal. -/
def distMatrix (ops : NumOps) (coords : List (ℚ × ℚ)) : ℕ → ℕ → ℚ :=
  fun i j =>
    if i = j then 0
    else
      ops.sqrt (((coordAt coords j).1 - (coordAt coords i).1) ^ 2 +
        ((coordAt coords j).2 - (coordAt coords i).2) ^ 2)

/-- _compute_visibility of the reference engine:
eta[i][j] = 1/dist[i][j] when i = j fails and dist[i][j] > 0, else 0. -/
def etaMatrix (dist : ℕ → ℕ → ℚ) : ℕ → ℕ → ℚ :=
  fun i j => if i ≠ j ∧ 0 < dist i j then 1 / dist i j else 0

/-- _initialize_pheromones: ones with a zero diagonal. -/
def initPheromones : ℕ → ℕ → ℚ :=
  fun i j => if i = j then 0 else 1

/-- ACOEngine.__init__ (reference engine).  The constructor performs no
validation of its arguments: it stores them, derives n and m (m defaults to
n when absent), builds the three matrices and initializes the best-solution
pair to (absent, +∞).  The seed argument is represented by the draw stream
it induces. -/
def mkEngine (ops : NumOps) (coords : List (ℚ × ℚ)) (alpha beta p Q : ℚ)
    (m : Option ℕ) (stream : ℕ → ℚ) : EngineState :=
  let dist := distMatrix ops coords
  { ops := ops
    coords := coords
    alpha := alpha
    beta := beta
    p := p
    Q := Q
    m := m.getD coords.length
    dist := dist
    eta := etaMatrix dist
    tau := initPheromones
    bestTourGlobal := none
    bestLenGlobal := ⊤
    rngStream := stream
    rngIdx := 0 }

/-- The list of unvisited cities in ascending order.  The source keeps a
visited set whose members are exactly the cities of the partial tour, and
builds [city for city in range(n) if city not in visited]. -/
def unvisitedOf (n : ℕ) (tour : List ℕ) : List ℕ :=
  (List.range n).filter (fun c => !(tour.contains c))

/-- One selection step of the reference tour builder (the body of the while
loop of _build_probabilistic_tour, given the draw r of this step): scores
tau[cur][c]^alpha * eta[cur][c]^beta over the unvisited cities, uniform
probabilities when the total is zero, otherwise normalized scores; roulette
selection by cumsum + searchsorted, with the final clamp of the index. -/
def tourStep (ops : NumOps) (tau eta : ℕ → ℕ → ℚ) (alpha beta : ℚ) (n : ℕ)
    (tour : List ℕ) (current : ℕ) (r : ℚ) : ℕ :=
  let unvisited := unvisitedOf n tour
  let scores := unvisited.map
    (fun c => ops.fpow (tau current c) alpha * ops.fpow (eta current c) beta)
  let total := scores.sum
  let probabilities :=
    if total = 0 then unvisited.map (fun _ => 1 / (unvisited.length : ℚ))
    else scores.map (fun s => s / total)
  let idx := searchsortedLeft (cumsum probabilities) r
  let idx := if unvisited.length ≤ idx then unvisited.length - 1 else idx
  unvisited.getD idx 0

/-- The while loop of _build_probabilistic_tour.  Each iteration extends the
tour (whose member set is the visited set) by one city while its length is
below n, consuming one draw; the fuel argument only bounds the iteration
count and is supplied large enough (the loop adds one city per iteration).
Returns the open tour together with the advanced stream cursor. -/
def buildAux (ops : NumOps) (tau eta : ℕ → ℕ → ℚ) (alpha beta : ℚ) (n : ℕ)
    (stream : ℕ → ℚ) : ℕ → List ℕ → ℕ → ℕ → List ℕ × ℕ
  | 0, tour, _, idx => (tour, idx)
  | fuel + 1, tour, current, idx =>
    if tour.length < n then
      if unvisitedOf n tour = [] then (tour, idx)
      else
        let next := tourStep ops tau eta alpha beta n tour current (stream idx)
        buildAux ops tau eta alpha beta n stream fuel (tour ++ [next]) next (idx + 1)
    else (tour, idx)

/-- _build_probabilistic_tour of the reference engine: grow the tour from
[start] and close it by appending the start city. -/
def buildTour (ops : NumOps) (tau eta : ℕ → ℕ → ℚ) (alpha beta : ℚ) (n : ℕ)
    (stream : ℕ → ℚ) (idx : ℕ) (start : ℕ) : List ℕ × ℕ :=
  let r := buildAux ops tau eta alpha beta n stream n [start] start idx
  (r.1 ++ [start], r.2)

/-- _tour_length: sum of dist over consecutive pairs of the tour. -/
def tourLength (dist : ℕ → ℕ → ℚ) (tour : List ℕ) : ℚ :=
  (tourEdges tour).foldl (fun acc ab => acc + dist ab.1 ab.2) 0

/-- The construction loop of run_cycle from ant index k for cnt ants: ant k
starts at city k mod n, builds a tour and measures it; the draw cursor is
threaded through the ants in order.  Returns (tours, lengths, cursor). -/
def constructFrom (s : EngineState) : ℕ → ℕ → ℕ → List (List ℕ) × List ℚ × ℕ
  | _, 0, idx => ([], [], idx)
  | k, cnt + 1, idx =>
    let start := k % s.n
    let r := buildTour s.ops s.tau s.eta s.alpha s.beta s.n s.rngStream idx start
    let len := tourLength s.dist r.1
    let rest := constructFrom s (k + 1) cnt r.2
    (r.1 :: rest.1, len :: rest.2.1, rest.2.2)

/-- Step 1 of run_cycle: all m ants construct their tours. -/
def constructTours (s : EngineState) : List (List ℕ) × List ℚ × ℕ :=
  constructFrom s 0 s.m s.rngIdx

/-- Step 2 of run_cycle: self.tau *= self.p. -/
def evaporate (p : ℚ) (tau : ℕ → ℕ → ℚ) : ℕ → ℕ → ℚ :=
  fun i j => tau i j * p

/-- Step 3 of run_cycle, reference engine, one ant: for each consecutive
pair of the tour, deposit Q / L on the edge in both directions. -/
def depositTour (Q : ℚ) (tau : ℕ → ℕ → ℚ) (tour : List ℕ) (L : ℚ) :
    ℕ → ℕ → ℚ :=
  (tourEdges tour).foldl (fun t ab => depositEdge t ab.1 ab.2 (Q / L)) tau

/-- Step 3 of run_cycle, reference engine: deposits of all ants in order. -/
def depositAll (Q : ℚ) (tau : ℕ → ℕ → ℚ) :
    List (List ℕ) → List ℚ → ℕ → ℕ → ℚ
  | [], _ => tau
  | _ :: _, [] => tau
  | tour :: ts, L :: Ls => depositAll Q (depositTour Q tau tour L) ts Ls

/-- ACOEngine.run_cycle of the reference engine.  Returns the updated engine
object together with the statistics record; when the lengths list is empty
(m = 0) CPython raises ValueError at min(lengths), after the pheromone
matrix has already been evaporated — this is modelled by returning the
mutated state with no statistics record. -/
def runCycle (s : EngineState) : EngineState × Option CycleStats :=
  let c := constructTours s
  let tours := c.1
  let lengths := c.2.1
  let idx := c.2.2
  let tau1 := evaporate s.p s.tau
  let tau2 := depositAll s.Q tau1 tours lengths
  match listMin lengths with
  | none => ({ s with tau := tau2, rngIdx := idx }, none)
  | some bestLenCycle =>
    let bestIdxCycle := indexOfFirst bestLenCycle lengths
    let bestTourCycle := tours.getD bestIdxCycle []
    let improved : Bool := decide ((bestLenCycle : WithTop ℚ) < s.bestLenGlobal)
    let bg : WithTop ℚ :=
      if improved then (bestLenCycle : WithTop ℚ) else s.bestLenGlobal
    let btg : Option (List ℕ) :=
      if improved then some bestTourCycle else s.bestTourGlobal
    let meanLenCycle := lengths.sum / (lengths.length : ℚ)
    ({ s with
        tau := tau2
        rngIdx := idx
        bestLenGlobal := bg
        bestTourGlobal := btg },
      some { best_len_cycle := bestLenCycle
             mean_len_cycle := meanLenCycle
             best_len_global := bg
             best_tour_global := btg
             all_lengths := lengths })

/-- The engine state after k run_cycle calls, together with the concatenation
of the all_lengths fields of the statistics emitted so far. -/
def runTrace (s : EngineState) : ℕ → EngineState × List ℚ
  | 0 => (s, [])
  | k + 1 =>
    let r := runTrace s k
    let c := runCycle r.1
    (c.1, r.2 ++ (c.2.map CycleStats.all_lengths).getD [])

/-- The sequence of statistics records of the first k run_cycle calls. -/
def statsSeq (s : EngineState) : ℕ → List (Option CycleStats)
  | 0 => []
  | k + 1 =>
    let r := runTrace s k
    statsSeq s k ++ [(runCycle r.1).2]

/-! ## The broadcast-optimized engine (ANT-tsp-_demo-main/model/aco_core.py)

It shares the state representation; its distance/visibility builders,
tour builder and deposit step differ as in the source.  The
_compute_distance_matrix and _compute_visibility of model/ant_model.py are
the same vectorized formulas as here. -/

/-- Vectorized _compute_distance_matrix: sqrt of the sum of coordinate
differences squared, including on the diagonal (sqrt 0 there). -/
def distMatrixOpt (ops : NumOps) (coords : List (ℚ × ℚ)) : ℕ → ℕ → ℚ :=
  fun i j =>
    ops.sqrt (((coordAt coords i).1 - (coordAt coords j).1) ^ 2 +
      ((coordAt coords i).2 - (coordAt coords j).2) ^ 2)

/-- Vectorized _compute_visibility: np.divide(1, dist, where dist > 0, out
zeros): 1/dist where dist > 0, 0 elsewhere. -/
def etaMatrixOpt (dist : ℕ → ℕ → ℚ) : ℕ → ℕ → ℚ :=
  fun i j => if 0 < dist i j then 1 / dist i j else 0

/-- __init__ of the optimized engine: identical to the reference constructor
except for the vectorized distance/visibility builders. -/
def mkEngineOpt (ops : NumOps) (coords : List (ℚ × ℚ)) (alpha beta p Q : ℚ)
    (m : Option ℕ) (stream : ℕ → ℚ) : EngineState :=
  let dist := distMatrixOpt ops coords
  { ops := ops
    coords := coords
    alpha := alpha
    beta := beta
    p := p
    Q := Q
    m := m.getD coords.length
    dist := dist
    eta := etaMatrixOpt dist
    tau := initPheromones
    bestTourGlobal := none
    bestLenGlobal := ⊤
    rngStream := stream
    rngIdx := 0 }

/-- The rng.choice call of the optimized fallback branch: given the draw
stream, the cursor and the unvisited indices, produce the chosen city and
the advanced cursor.  numpy integer sampling is library code external to
the repository, so it is a parameter. -/
def ChoiceFn : Type := (ℕ → ℚ) → ℕ → List ℕ → ℕ × ℕ

/-- One selection step of the optimized tour builder: scores over all n
cities with the visited ones masked to 0; when the total is positive,
roulette selection over the full masked cumulative distribution clamped to
n - 1, consuming one draw; otherwise rng.choice among the unvisited. -/
def optStep (ops : NumOps) (choice : ChoiceFn) (tau eta : ℕ → ℕ → ℚ)
    (alpha beta : ℚ) (n : ℕ) (visited : ℕ → Bool) (current : ℕ)
    (stream : ℕ → ℚ) (idx : ℕ) : ℕ × ℕ :=
  let scores := (List.range n).map
    (fun c => if visited c then 0
      else ops.fpow (tau current c) alpha * ops.fpow (eta current c) beta)
  let total := scores.sum
  if 0 < total then
    let probabilities := scores.map (fun sc => sc / total)
    let next := searchsortedLeft (cumsum probabilities) (stream idx)
    let next := if n ≤ next then n - 1 else next
    (next, idx + 1)
  else
    choice stream idx ((List.range n).filter (fun c => !visited c))

/-- The for loop of the optimized _build_probabilistic_tour (steps
1 .. n-1), carrying the boolean visited mask of the source. -/
def buildOptAux (ops : NumOps) (choice : ChoiceFn) (tau eta : ℕ → ℕ → ℚ)
    (alpha beta : ℚ) (n : ℕ) (stream : ℕ → ℚ) :
    ℕ → (ℕ → Bool) → List ℕ → ℕ → ℕ → List ℕ × ℕ
  | 0, _, tour, _, idx => (tour, idx)
  | steps + 1, visited, tour, current, idx =>
    let r := optStep ops choice tau eta alpha beta n visited current stream idx
    buildOptAux ops choice tau eta alpha beta n stream steps
      (fun c => if c = r.1 then true else visited c) (tour ++ [r.1]) r.1 r.2

/-- Optimized _build_probabilistic_tour: an (n+1)-slot array with the start
city at slots 0 and n and the n-1 constructed steps between (for n = 0 the
final write tour[n] = start lands on slot 0, leaving a one-slot array). -/
def buildTourOpt (ops : NumOps) (choice : ChoiceFn) (tau eta : ℕ → ℕ → ℚ)
    (alpha beta : ℚ) (n : ℕ) (stream : ℕ → ℚ) (idx : ℕ) (start : ℕ) :
    List ℕ × ℕ :=
  let r := buildOptAux ops choice tau eta alpha beta n stream (n - 1)
    (fun c => c = start) [start] start idx
  ((r.1.take n) ++ [start], r.2)

/-- The construction loop of the optimized run_cycle (tau ** alpha and
eta ** beta are precomputed once per cycle; pointwise they are the same
values the builder reads). -/
def constructFromOpt (choice : ChoiceFn) (s : EngineState) :
    ℕ → ℕ → ℕ → List (List ℕ) × List ℚ × ℕ
  | _, 0, idx => ([], [], idx)
  | k, cnt + 1, idx =>
    let start := k % s.n
    let r := buildTourOpt s.ops choice s.tau s.eta s.alpha s.beta s.n
      s.rngStream idx start
    let len := tourLength s.dist r.1
    let rest := constructFromOpt choice s (k + 1) cnt r.2
    (r.1 :: rest.1, len :: rest.2.1, rest.2.2)

/-- Step 1 of the optimized run_cycle. -/
def constructToursOpt (choice : ChoiceFn) (s : EngineState) :
    List (List ℕ) × List ℚ × ℕ :=
  constructFromOpt choice s 0 s.m s.rngIdx

/-- np.add.at(tau, (froms, tos), d): one in-place addition per listed pair,
duplicates accumulating. -/
def addAtPairs (tau : ℕ → ℕ → ℚ) (prs : List (ℕ × ℕ)) (d : ℚ) :
    ℕ → ℕ → ℚ :=
  prs.foldl (fun t ab => depositAt t ab.1 ab.2 d) tau

/-- Step 3 of the optimized run_cycle, one ant: np.add.at on all forward
edges, then np.add.at on all reversed edges. -/
def depositTourOpt (Q : ℚ) (tau : ℕ → ℕ → ℚ) (tour : List ℕ) (L : ℚ) :
    ℕ → ℕ → ℚ :=
  let prs := tourEdges tour
  addAtPairs (addAtPairs tau prs (Q / L)) (prs.map (fun ab => (ab.2, ab.1)))
    (Q / L)

/-- Step 3 of the optimized run_cycle: deposits of all ants in order. -/
def depositAllOpt (Q : ℚ) (tau : ℕ → ℕ → ℚ) :
    List (List ℕ) → List ℚ → ℕ → ℕ → ℚ
  | [], _ => tau
  | _ :: _, [] => tau
  | tour :: ts, L :: Ls => depositAllOpt Q (depositTourOpt Q tau tour L) ts Ls

/-- run_cycle of the optimized engine (same orchestration as the reference
one, with the optimized construction and deposit steps). -/
def runCycleOpt (choice : ChoiceFn) (s : EngineState) :
    EngineState × Option CycleStats :=
  let c := constructToursOpt choice s
  let tours := c.1
  let lengths := c.2.1
  let idx := c.2.2
  let tau1 := evaporate s.p s.tau
  let tau2 := depositAllOpt s.Q tau1 tours lengths
  match listMin lengths with
  | none => ({ s with tau := tau2, rngIdx := idx }, none)
  | some bestLenCycle =>
    let bestIdxCycle := indexOfFirst bestLenCycle lengths
    let bestTourCycle := tours.getD bestIdxCycle []
    let improved : Bool := decide ((bestLenCycle : WithTop ℚ) < s.bestLenGlobal)
    let bg : WithTop ℚ :=
      if improved then (bestLenCycle : WithTop ℚ) else s.bestLenGlobal
    let btg : Option (List ℕ) :=
      if improved then some bestTourCycle else s.bestTourGlobal
    let meanLenCycle := lengths.sum / (lengths.length : ℚ)
    ({ s with
        tau := tau2
        rngIdx := idx
        bestLenGlobal := bg
        bestTourGlobal := btg },
      some { best_len_cycle := bestLenCycle
             mean_len_cycle := meanLenCycle
             best_len_global := bg
             best_tour_global := btg
             all_lengths := lengths })

/-- The state after k run_cycle calls of the reference engine. -/
def iterRef (s : EngineState) : ℕ → EngineState
  | 0 => s
  | k + 1 => (runCycle (iterRef s k)).1

/-- The state after k run_cycle calls of the optimized engine. -/
def iterOpt (choice : ChoiceFn) (s : EngineState) : ℕ → EngineState
  | 0 => s
  | k + 1 => (runCycleOpt choice (iterOpt choice s k)).1

/-- A symmetric matrix. -/
def SymmM (f : ℕ → ℕ → ℚ) : Prop := ∀ i j, f i j = f j i

/-- The roulette rule exactly as the spec phrases it: the first index whose
cumulative probability meets or exceeds the draw. -/
def specRouletteIndex (probs : List ℚ) (r : ℚ) : ℕ :=
  (cumsum probs).findIdx (fun x => decide (r ≤ x))

/-- The selection step as described by the spec sentence: normalize the
scores of the unvisited cities to probabilities (equal probabilities when
the score total is zero) and take the first unvisited city whose cumulative
probability meets or exceeds the draw. -/
def specSelectNext (ops : NumOps) (tau eta : ℕ → ℕ → ℚ) (alpha beta : ℚ)
    (n : ℕ) (tour : List ℕ) (current : ℕ) (r : ℚ) : ℕ :=
  let unvisited := unvisitedOf n tour
  let scores := unvisited.map
    (fun c => ops.fpow (tau current c) alpha * ops.fpow (eta current c) beta)
  let probs :=
    if scores.sum = 0 then unvisited.map (fun _ => 1 / (unvisited.length : ℚ))
    else scores.map (fun sc => sc / scores.sum)
  unvisited.getD (specRouletteIndex probs r) 0

/-! ## Basic lemmas -/

theorem listMin_cons (x : ℚ) (xs : List ℚ) :
    listMin (x :: xs) = some (xs.foldl min x) := rfl

theorem minWOf_nil : minWOf [] = ⊤ := rfl

theorem minWOf_cons (x : ℚ) (xs : List ℚ) :
    minWOf (x :: xs) = min (x : WithTop ℚ) (minWOf xs) := rfl

theorem minWOf_append (l₁ l₂ : List ℚ) :
    minWOf (l₁ ++ l₂) = min (minWOf l₁) (minWOf l₂) := by
  induction l₁ with
  | nil => simp [minWOf_nil, minWOf]
  | cons x xs ih =>
    simp only [List.cons_append, minWOf_cons, ih, min_assoc]

theorem foldl_min_coe (xs : List ℚ) : ∀ x : ℚ,
    ((xs.foldl min x : ℚ) : WithTop ℚ) = min (x : WithTop ℚ) (minWOf xs) := by
  induction xs with
  | nil =>
    intro x
    simp [minWOf_nil, min_eq_left (le_top : (x : WithTop ℚ) ≤ ⊤)]
  | cons y ys ih =>
    intro x
    simp only [List.foldl_cons, ih, minWOf_cons, WithTop.coe_min, min_assoc]

theorem listMin_eq_minWOf (l : List ℚ) (v : ℚ) (h : listMin l = some v) :
    (v : WithTop ℚ) = minWOf l := by
  cases l with
  | nil => simp [listMin] at h
  | cons x xs =>
    simp only [listMin_cons, Option.some.injEq] at h
    subst h
    simpa [minWOf_cons] using foldl_min_coe xs x

theorem constructFrom_lengths_length (s : EngineState) :
    ∀ cnt k idx, ((constructFrom s k cnt idx).2.1).length = cnt := by
  intro cnt
  induction cnt with
  | zero => intro k idx; rfl
  | succ c ih => intro k idx; simp [constructFrom, ih]

theorem constructFrom_tours_length (s : EngineState) :
    ∀ cnt k idx, ((constructFrom s k cnt idx).1).length = cnt := by
  intro cnt
  induction cnt with
  | zero => intro k idx; rfl
  | succ c ih => intro k idx; simp [constructFrom, ih]

/-- Fields of the engine untouched by run_cycle. -/
theorem runCycle_fixed (s : EngineState) :
    (runCycle s).1.ops = s.ops ∧ (runCycle s).1.coords = s.coords ∧
    (runCycle s).1.alpha = s.alpha ∧ (runCycle s).1.beta = s.beta ∧
    (runCycle s).1.p = s.p ∧ (runCycle s).1.Q = s.Q ∧
    (runCycle s).1.m = s.m ∧ (runCycle s).1.dist = s.dist ∧
    (runCycle s).1.eta = s.eta ∧ (runCycle s).1.rngStream = s.rngStream := by
  cases h : listMin (constructTours s).2.1 <;>
    simp [runCycle, h]

/-- The pheromone matrix after run_cycle: evaporation then all deposits,
in both the completing and the failing (m = 0) branch. -/
theorem runCycle_tau (s : EngineState) :
    (runCycle s).1.tau =
      depositAll s.Q (evaporate s.p s.tau) (constructTours s).1
        (constructTours s).2.1 := by
  cases h : listMin (constructTours s).2.1 <;> simp [runCycle, h]

theorem runCycle_rngIdx (s : EngineState) :
    (runCycle s).1.rngIdx = (constructTours s).2.2 := by
  cases h : listMin (constructTours s).2.1 <;> simp [runCycle, h]

/-- The best-global length after a cycle is the minimum of the previous one
and the minimum of the lengths the cycle produced (an empty cycle produces
no statistics record and leaves it unchanged). -/
theorem runCycle_best (s : EngineState) :
    (runCycle s).1.bestLenGlobal =
      min s.bestLenGlobal
        (minWOf (((runCycle s).2.map CycleStats.all_lengths).getD [])) := by
  cases h : listMin (constructTours s).2.1 with
  | none =>
    simp [runCycle, h, minWOf_nil, min_eq_left (le_top : s.bestLenGlobal ≤ ⊤)]
  | some v =>
    have hv : (v : WithTop ℚ) = minWOf (constructTours s).2.1 :=
      listMin_eq_minWOf _ _ h
    by_cases himp : (v : WithTop ℚ) < s.bestLenGlobal
    · simp [runCycle, h, himp, ← hv, min_eq_right (le_of_lt himp)]
    · simp [runCycle, h, himp, ← hv, min_eq_left (not_lt.mp himp)]

theorem runCycle_stats_lengths (s : EngineState) (st : CycleStats)
    (h : (runCycle s).2 = some st) :
    st.all_lengths = (constructTours s).2.1 ∧
    st.best_len_global = (runCycle s).1.bestLenGlobal ∧
    st.best_tour_global = (runCycle s).1.bestTourGlobal ∧
    listMin (constructTours s).2.1 = some st.best_len_cycle := by
  cases hL : listMin (constructTours s).2.1 with
  | none => simp [runCycle, hL] at h
  | some v =>
    by_cases himp : (v : WithTop ℚ) < s.bestLenGlobal <;>
    · simp only [runCycle, hL, himp] at h
      cases h
      simp [runCycle, hL, himp]

/-- Without a strict improvement, the stored best pair is unchanged. -/
theorem runCycle_no_improvement (s : EngineState) (st : CycleStats)
    (h : (runCycle s).2 = some st)
    (hge : ¬ ((st.best_len_cycle : WithTop ℚ) < s.bestLenGlobal)) :
    (runCycle s).1.bestLenGlobal = s.bestLenGlobal ∧
    (runCycle s).1.bestTourGlobal = s.bestTourGlobal := by
  cases hL : listMin (constructTours s).2.1 with
  | none => simp [runCycle, hL] at h
  | some v =>
    have hv : st.best_len_cycle = v := by
      by_cases himp : (v : WithTop ℚ) < s.bestLenGlobal <;>
      · simp only [runCycle, hL, himp] at h
        cases h.symm
        rfl
    subst hv
    simp [runCycle, hL, hge]

theorem depositAt_apply (tau : ℕ → ℕ → ℚ) (a b : ℕ) (d : ℚ) (i j : ℕ) :
    depositAt tau a b d i j = tau i j + if i = a ∧ j = b then d else 0 := by
  unfold depositAt
  split_ifs <;> simp

theorem depositEdge_apply (tau : ℕ → ℕ → ℚ) (a b : ℕ) (d : ℚ) (i j : ℕ) :
    depositEdge tau a b d i j =
      tau i j + ((if i = a ∧ j = b then d else 0) +
        (if i = b ∧ j = a then d else 0)) := by
  unfold depositEdge
  rw [depositAt_apply, depositAt_apply, add_assoc]

theorem foldl_preserve {α β : Type} (P : α → Prop) (f : α → β → α)
    (hf : ∀ a b, P a → P (f a b)) :
    ∀ (l : List β) (a : α), P a → P (l.foldl f a) := by
  intro l
  induction l with
  | nil => intro a h; exact h
  | cons x xs ih => intro a h; exact ih (f a x) (hf a x h)

theorem evaporate_one (tau : ℕ → ℕ → ℚ) : evaporate 1 tau = tau := by
  funext i j
  simp [evaporate]

theorem depositEdge_zero (tau : ℕ → ℕ → ℚ) (a b : ℕ) :
    depositEdge tau a b 0 = tau := by
  funext i j
  rw [depositEdge_apply]
  split_ifs <;> simp

theorem depositTour_zeroQ (tau : ℕ → ℕ → ℚ) (tour : List ℕ) (L : ℚ) :
    depositTour 0 tau tour L = tau := by
  unfold depositTour
  have h : ∀ (t : ℕ → ℕ → ℚ) (ab : ℕ × ℕ),
      depositEdge t ab.1 ab.2 ((0 : ℚ) / L) = t := by
    intro t ab
    rw [zero_div]
    exact depositEdge_zero t ab.1 ab.2
  induction tourEdges tour generalizing tau with
  | nil => rfl
  | cons x xs ih => rw [List.foldl_cons, h tau x]; exact ih tau

theorem depositAll_zeroQ (tau : ℕ → ℕ → ℚ) :
    ∀ (ts : List (List ℕ)) (Ls : List ℚ), depositAll 0 tau ts Ls = tau := by
  intro ts
  induction ts generalizing tau with
  | nil => intro Ls; rfl
  | cons t ts ih =>
    intro Ls
    cases Ls with
    | nil => rfl
    | cons L Ls => rw [depositAll, depositTour_zeroQ]; exact ih tau Ls

/-- With p = 1 and Q = 0 a cycle leaves the pheromone matrix unchanged. -/
theorem runCycle_tau_frozen (s : EngineState) (hp : s.p = 1) (hQ : s.Q = 0) :
    (runCycle s).1.tau = s.tau := by
  rw [runCycle_tau, hp, hQ, evaporate_one, depositAll_zeroQ]

/-! ## Claim theorems -/

/-- C10: an engine constructed with ant count m = 0 keeps m = 0 (construction
succeeds), and its run_cycle builds no tours, multiplies every pheromone
entry by p, leaves the draw cursor and best pair alone, and produces no
statistics record (CPython raises ValueError at min of the empty lengths
list) — the call is not atomic, the evaporation having already mutated tau. -/
theorem spec_zero_ants_fails_midrun (ops : NumOps) (coords : List (ℚ × ℚ))
    (alpha beta p Q : ℚ) (stream : ℕ → ℚ) :
    (mkEngine ops coords alpha beta p Q (some 0) stream).m = 0 ∧
    (runCycle (mkEngine ops coords alpha beta p Q (some 0) stream)).2 = none ∧
    (∀ i j, (runCycle (mkEngine ops coords alpha beta p Q (some 0) stream)).1.tau i j
      = initPheromones i j * p) ∧
    (runCycle (mkEngine ops coords alpha beta p Q (some 0) stream)).1.rngIdx = 0 ∧
    (runCycle (mkEngine ops coords alpha beta p Q (some 0) stream)).1.bestLenGlobal = ⊤ := by
  refine ⟨rfl, rfl, ?_, rfl, rfl⟩
  intro i j
  rfl

/-- C3 counterexample: an engine constructed with ant count 0 — an invalid
input the claim says must be rejected with a typed failure at construction —
is accepted by the constructor (the state exists and stores m = 0), and the
invalid configuration is first detected mid-run: run_cycle produces no
statistics record. -/
theorem spec_validation_counterexample :
    (mkEngine ⟨fun x => x, fun x _ => x⟩ [(0, 0), (3, 4)] 1 5 (1/2) 100
        (some 0) (fun _ => 0)).m = 0 ∧
    (runCycle (mkEngine ⟨fun x => x, fun x _ => x⟩ [(0, 0), (3, 4)] 1 5 (1/2) 100
        (some 0) (fun _ => 0))).2 = none := by
  exact ⟨rfl, rfl⟩

/-- C3 amended: engine construction performs no validation at all — every
combination of coordinates and hyperparameters is accepted, the arguments
are stored unchecked (m defaulting to the city count only when absent) and
no cycle is run at construction; an invalid configuration such as ant count
0 is first detected mid-run, where run_cycle fails to produce a statistics
record. -/
theorem spec_construction_unvalidated (ops : NumOps) (coords : List (ℚ × ℚ))
    (alpha beta p Q : ℚ) (mo : Option ℕ) (stream : ℕ → ℚ) :
    (mkEngine ops coords alpha beta p Q mo stream).coords = coords ∧
    (mkEngine ops coords alpha beta p Q mo stream).alpha = alpha ∧
    (mkEngine ops coords alpha beta p Q mo stream).beta = beta ∧
    (mkEngine ops coords alpha beta p Q mo stream).p = p ∧
    (mkEngine ops coords alpha beta p Q mo stream).Q = Q ∧
    (mkEngine ops coords alpha beta p Q mo stream).m = mo.getD coords.length ∧
    (mkEngine ops coords alpha beta p Q mo stream).rngIdx = 0 ∧
    (mkEngine ops coords alpha beta p Q mo stream).bestLenGlobal = ⊤ ∧
    (mkEngine ops coords alpha beta p Q mo stream).bestTourGlobal = none ∧
    (runCycle (mkEngine ops coords alpha beta p Q (some 0) stream)).2 = none := by
  exact ⟨rfl, rfl, rfl, rfl, rfl, rfl, rfl, rfl, rfl, rfl⟩

/-- C8: with persistence p = 1 and deposit constant Q = 0, the pheromone
matrix after any number of run_cycle calls is still its initial value —
0 on the diagonal and 1 off it — since evaporation multiplies by 1 and
every deposit adds Q/length = 0. -/
theorem spec_tau_frozen (ops : NumOps) (coords : List (ℚ × ℚ))
    (alpha beta p Q : ℚ) (mo : Option ℕ) (stream : ℕ → ℚ) (k : ℕ)
    (hp : p = 1) (hQ : Q = 0) :
    ∀ i j, (iterRef (mkEngine ops coords alpha beta p Q mo stream) k).tau i j
      = if i = j then 0 else 1 := by
  subst hp hQ
  have key : ∀ k, (iterRef (mkEngine ops coords alpha beta 1 0 mo stream) k).tau
      = initPheromones ∧
      (iterRef (mkEngine ops coords alpha beta 1 0 mo stream) k).p = 1 ∧
      (iterRef (mkEngine ops coords alpha beta 1 0 mo stream) k).Q = 0 := by
    intro k
    induction k with
    | zero => exact ⟨rfl, rfl, rfl⟩
    | succ k ih =>
      obtain ⟨ht, hp, hQ⟩ := ih
      refine ⟨?_, ?_, ?_⟩
      · rw [iterRef, runCycle_tau_frozen _ hp hQ, ht]
      · rw [iterRef, (runCycle_fixed _).2.2.2.2.1, hp]
      · rw [iterRef, (runCycle_fixed _).2.2.2.2.2.1, hQ]
  intro i j
  rw [(key k).1]
  rfl

/-- Witness for C8 at a concrete engine and concrete matrix entries. -/
theorem spec_tau_frozen_witness :
    (iterRef (mkEngine ⟨fun x => x, fun x _ => x⟩ [(0, 0), (3, 4)]
      1 5 1 0 none (fun _ => 0)) 3).tau 0 1 = (if (0 : ℕ) = 1 then 0 else 1) ∧
    (iterRef (mkEngine ⟨fun x => x, fun x _ => x⟩ [(0, 0), (3, 4)]
      1 5 1 0 none (fun _ => 0)) 3).tau 1 1 = (if (1 : ℕ) = 1 then 0 else 1) :=
  ⟨spec_tau_frozen ⟨fun x => x, fun x _ => x⟩ [(0, 0), (3, 4)]
    1 5 1 0 none (fun _ => 0) 3 rfl rfl 0 1,
   spec_tau_frozen ⟨fun x => x, fun x _ => x⟩ [(0, 0), (3, 4)]
    1 5 1 0 none (fun _ => 0) 3 rfl rfl 1 1⟩

theorem initPheromones_symm : SymmM initPheromones := by
  intro i j
  unfold initPheromones
  exact if_congr eq_comm rfl rfl

theorem evaporate_symm (p : ℚ) (tau : ℕ → ℕ → ℚ) (h : SymmM tau) :
    SymmM (evaporate p tau) := by
  intro i j
  simp [evaporate, h i j]

theorem depositEdge_symm (tau : ℕ → ℕ → ℚ) (a b : ℕ) (d : ℚ)
    (h : SymmM tau) : SymmM (depositEdge tau a b d) := by
  intro i j
  rw [depositEdge_apply, depositEdge_apply, h i j]
  have e1 : (if j = a ∧ i = b then d else 0) = (if i = b ∧ j = a then d else 0) :=
    if_congr and_comm rfl rfl
  have e2 : (if j = b ∧ i = a then d else 0) = (if i = a ∧ j = b then d else 0) :=
    if_congr and_comm rfl rfl
  rw [e1, e2, add_comm (if i = b ∧ j = a then d else 0)]

theorem depositTour_symm (Q : ℚ) (tau : ℕ → ℕ → ℚ) (tour : List ℕ) (L : ℚ)
    (h : SymmM tau) : SymmM (depositTour Q tau tour L) := by
  unfold depositTour
  exact foldl_preserve SymmM _
    (fun t ab ht => depositEdge_symm t ab.1 ab.2 (Q / L) ht) _ tau h

theorem depositAll_symm (Q : ℚ) (tau : ℕ → ℕ → ℚ)
    (ts : List (List ℕ)) (Ls : List ℚ) (h : SymmM tau) :
    SymmM (depositAll Q tau ts Ls) := by
  induction ts generalizing tau Ls with
  | nil => cases Ls <;> exact h
  | cons t ts ih =>
    cases Ls with
    | nil => exact h
    | cons L Ls => exact ih _ Ls (depositTour_symm Q tau t L h)

/-- C6: the distance matrix is symmetric, and pheromone symmetry is
preserved by evaporation, by every (bidirectional) edge deposit, and by a
whole run_cycle; consequently tau is symmetric after any number of cycles
of a freshly constructed engine. -/
theorem spec_symmetry :
    (∀ (ops : NumOps) (coords : List (ℚ × ℚ)) (i j : ℕ),
        distMatrix ops coords i j = distMatrix ops coords j i) ∧
    (∀ (p : ℚ) (tau : ℕ → ℕ → ℚ), SymmM tau → SymmM (evaporate p tau)) ∧
    (∀ (tau : ℕ → ℕ → ℚ) (a b : ℕ) (d : ℚ), SymmM tau →
        SymmM (depositEdge tau a b d)) ∧
    (∀ s : EngineState, SymmM s.tau → SymmM ((runCycle s).1.tau)) ∧
    (∀ (ops : NumOps) (coords : List (ℚ × ℚ)) (alpha beta p Q : ℚ)
        (mo : Option ℕ) (stream : ℕ → ℚ) (k : ℕ),
        SymmM ((iterRef (mkEngine ops coords alpha beta p Q mo stream) k).tau)) := by
  have hrun : ∀ s : EngineState, SymmM s.tau → SymmM ((runCycle s).1.tau) := by
    intro s hs
    rw [runCycle_tau]
    exact depositAll_symm _ _ _ _ (evaporate_symm _ _ hs)
  refine ⟨?_, evaporate_symm, depositEdge_symm, hrun, ?_⟩
  · intro ops coords i j
    unfold distMatrix
    by_cases h : i = j
    · rw [if_pos h, if_pos h.symm]
    · rw [if_neg h, if_neg (Ne.symm h)]
      congr 1
      ring
  · intro ops coords alpha beta p Q mo stream k
    induction k with
    | zero => exact initPheromones_symm
    | succ k ih => exact hrun _ ih

/-- Witness for C6: symmetry hypotheses discharged at a concrete engine. -/
theorem spec_symmetry_witness :
    SymmM ((runCycle (mkEngine ⟨fun x => x, fun x _ => x⟩
      [(0, 0), (3, 4), (1, 1)] 1 5 (1/2) 100 none (fun _ => 0))).1.tau) :=
  spec_symmetry.2.2.2.1 _ (fun i j => if_congr eq_comm rfl rfl)

/-- C9: the visibility builder is total and guarded — both in the loop
version of model/aco_core.py and in the vectorized version shared by
model/ant_model.py and the optimized engine, eta is 1/dist off the diagonal
where the distance is positive, and exactly 0 on the diagonal and on every
pair of cities with duplicate coordinates (distance zero), so no division
by zero is performed and no infinity enters the matrices.  The only float
fact used is sqrt 0 = 0. -/
theorem spec_visibility_total (ops : NumOps) (coords : List (ℚ × ℚ))
    (h0 : ops.sqrt 0 = 0) :
    ∀ i j,
      (i ≠ j → 0 < distMatrix ops coords i j →
        etaMatrix (distMatrix ops coords) i j = 1 / distMatrix ops coords i j) ∧
      (i = j → etaMatrix (distMatrix ops coords) i j = 0) ∧
      (coordAt coords i = coordAt coords j →
        etaMatrix (distMatrix ops coords) i j = 0) ∧
      (i ≠ j → 0 < distMatrixOpt ops coords i j →
        etaMatrixOpt (distMatrixOpt ops coords) i j
          = 1 / distMatrixOpt ops coords i j) ∧
      (i = j → etaMatrixOpt (distMatrixOpt ops coords) i j = 0) ∧
      (coordAt coords i = coordAt coords j →
        etaMatrixOpt (distMatrixOpt ops coords) i j = 0) := by
  intro i j
  have hdup : coordAt coords i = coordAt coords j →
      distMatrix ops coords i j = 0 ∧ distMatrixOpt ops coords i j = 0 := by
    intro hco
    unfold distMatrix distMatrixOpt
    rw [hco]
    constructor
    · split_ifs with h
      · rfl
      · simpa using h0
    · simpa using h0
  refine ⟨?_, ?_, ?_, ?_, ?_, ?_⟩
  · intro hne hpos
    unfold etaMatrix
    rw [if_pos ⟨hne, hpos⟩]
  · intro heq
    unfold etaMatrix
    rw [if_neg]
    intro hc
    exact hc.1 heq
  · intro hco
    unfold etaMatrix
    rw [if_neg]
    intro hc
    rw [(hdup hco).1] at hc
    exact lt_irrefl 0 hc.2
  · intro hne hpos
    unfold etaMatrixOpt
    rw [if_pos hpos]
  · intro heq
    subst heq
    unfold etaMatrixOpt
    rw [if_neg]
    have : distMatrixOpt ops coords i i = 0 := by
      unfold distMatrixOpt
      simpa using h0
    rw [this]
    exact lt_irrefl 0
  · intro hco
    unfold etaMatrixOpt
    rw [if_neg]
    rw [(hdup hco).2]
    exact lt_irrefl 0

/-- Witness for C9 with the identity as sqrt (for which sqrt 0 = 0), at the
duplicate-coordinate pair (0, 2) of a concrete city set. -/
theorem spec_visibility_total_witness :
    ((0 : ℕ) ≠ 2 → 0 < distMatrix ⟨fun x => x, fun x _ => x⟩ [(0, 0), (3, 4), (0, 0)] 0 2 →
      etaMatrix (distMatrix ⟨fun x => x, fun x _ => x⟩ [(0, 0), (3, 4), (0, 0)]) 0 2
        = 1 / distMatrix ⟨fun x => x, fun x _ => x⟩ [(0, 0), (3, 4), (0, 0)] 0 2) ∧
    ((0 : ℕ) = 2 → etaMatrix (distMatrix ⟨fun x => x, fun x _ => x⟩ [(0, 0), (3, 4), (0, 0)]) 0 2 = 0) ∧
    (coordAt [(0, 0), (3, 4), (0, 0)] 0 = coordAt [(0, 0), (3, 4), (0, 0)] 2 →
      etaMatrix (distMatrix ⟨fun x => x, fun x _ => x⟩ [(0, 0), (3, 4), (0, 0)]) 0 2 = 0) ∧
    ((0 : ℕ) ≠ 2 → 0 < distMatrixOpt ⟨fun x => x, fun x _ => x⟩ [(0, 0), (3, 4), (0, 0)] 0 2 →
      etaMatrixOpt (distMatrixOpt ⟨fun x => x, fun x _ => x⟩ [(0, 0), (3, 4), (0, 0)]) 0 2
        = 1 / distMatrixOpt ⟨fun x => x, fun x _ => x⟩ [(0, 0), (3, 4), (0, 0)] 0 2) ∧
    ((0 : ℕ) = 2 → etaMatrixOpt (distMatrixOpt ⟨fun x => x, fun x _ => x⟩ [(0, 0), (3, 4), (0, 0)]) 0 2 = 0) ∧
    (coordAt [(0, 0), (3, 4), (0, 0)] 0 = coordAt [(0, 0), (3, 4), (0, 0)] 2 →
      etaMatrixOpt (distMatrixOpt ⟨fun x => x, fun x _ => x⟩ [(0, 0), (3, 4), (0, 0)]) 0 2 = 0) :=
  spec_visibility_total ⟨fun x => x, fun x _ => x⟩ [(0, 0), (3, 4), (0, 0)] rfl 0 2

/-- C4: determinism — two engines constructed with identical coordinates,
identical hyperparameters and the same seed (hence the same generator
stream) emit identical sequences of per-cycle statistics records over any
equal number of run_cycle calls.  The record here carries the five data
fields of the per-cycle output record of the spec; the wall-clock timing
fields of the source dictionary are real-time measurements outside the
embedding. -/
theorem spec_determinism (defaultRng : ℤ → ℕ → ℚ) (ops₁ ops₂ : NumOps)
    (coords₁ coords₂ : List (ℚ × ℚ)) (a₁ a₂ b₁ b₂ p₁ p₂ Q₁ Q₂ : ℚ)
    (mo₁ mo₂ : Option ℕ) (seed₁ seed₂ : ℤ) (k : ℕ)
    (hops : ops₁ = ops₂) (hc : coords₁ = coords₂) (ha : a₁ = a₂)
    (hb : b₁ = b₂) (hp : p₁ = p₂) (hQ : Q₁ = Q₂) (hm : mo₁ = mo₂)
    (hseed : seed₁ = seed₂) :
    statsSeq (mkEngine ops₁ coords₁ a₁ b₁ p₁ Q₁ mo₁ (defaultRng seed₁)) k =
    statsSeq (mkEngine ops₂ coords₂ a₂ b₂ p₂ Q₂ mo₂ (defaultRng seed₂)) k := by
  subst hops hc ha hb hp hQ hm hseed
  rfl

/-- Witness for C4: a 2-city engine run for one cycle with seed 42. -/
theorem spec_determinism_witness :
    statsSeq (mkEngine ⟨fun x => x, fun x _ => x⟩ [(0, 0), (3, 4)]
      1 5 (1/2) 100 none ((fun _ _ => (1:ℚ)/3) (42 : ℤ))) 1 =
    statsSeq (mkEngine ⟨fun x => x, fun x _ => x⟩ [(0, 0), (3, 4)]
      1 5 (1/2) 100 none ((fun _ _ => (1:ℚ)/3) (42 : ℤ))) 1 :=
  spec_determinism (fun _ _ => (1:ℚ)/3) _ _ _ _ _ _ _ _ _ _ _ _ _ _
    (42 : ℤ) (42 : ℤ) 1 rfl rfl rfl rfl rfl rfl rfl rfl

/-- C2: on an engine whose best-global length starts at +∞ (as the
constructor sets it), after any number of run_cycle calls best_len_global
equals the minimum over all tour lengths produced by any ant in any cycle
so far (+∞ while none), it is non-increasing from cycle to cycle, and the
stored best pair is replaced only when a cycle's best length is strictly
smaller. -/
theorem spec_best_global (s : EngineState) (h0 : s.bestLenGlobal = ⊤)
    (hm : 1 ≤ s.m) (hn : 1 ≤ s.n) :
    (∀ k, (runTrace s k).1.bestLenGlobal = minWOf (runTrace s k).2) ∧
    (∀ k, (runTrace s (k + 1)).1.bestLenGlobal
        ≤ (runTrace s k).1.bestLenGlobal) ∧
    (∀ k st, (runCycle (runTrace s k).1).2 = some st →
      ¬ ((st.best_len_cycle : WithTop ℚ) < (runTrace s k).1.bestLenGlobal) →
      (runCycle (runTrace s k).1).1.bestLenGlobal
          = (runTrace s k).1.bestLenGlobal ∧
      (runCycle (runTrace s k).1).1.bestTourGlobal
          = (runTrace s k).1.bestTourGlobal) := by
  refine ⟨?_, ?_, ?_⟩
  · intro k
    induction k with
    | zero => simpa [runTrace, minWOf_nil] using h0
    | succ k ih =>
      show (runCycle (runTrace s k).1).1.bestLenGlobal
          = minWOf ((runTrace s k).2 ++
            (((runCycle (runTrace s k).1).2.map CycleStats.all_lengths).getD []))
      rw [runCycle_best, minWOf_append, ih]
  · intro k
    show (runCycle (runTrace s k).1).1.bestLenGlobal ≤ _
    rw [runCycle_best]
    exact min_le_left _ _
  · intro k st h hge
    exact runCycle_no_improvement _ _ h hge

/-- Witness for C2 at a freshly constructed 2-city engine. -/
theorem spec_best_global_witness :
    (∀ k, (runTrace (mkEngine ⟨fun x => x, fun x _ => x⟩ [(0, 0), (3, 4)]
        1 5 (1/2) 100 none (fun _ => 0)) k).1.bestLenGlobal
      = minWOf (runTrace (mkEngine ⟨fun x => x, fun x _ => x⟩ [(0, 0), (3, 4)]
        1 5 (1/2) 100 none (fun _ => 0)) k).2) ∧
    (∀ k, (runTrace (mkEngine ⟨fun x => x, fun x _ => x⟩ [(0, 0), (3, 4)]
        1 5 (1/2) 100 none (fun _ => 0)) (k + 1)).1.bestLenGlobal
      ≤ (runTrace (mkEngine ⟨fun x => x, fun x _ => x⟩ [(0, 0), (3, 4)]
        1 5 (1/2) 100 none (fun _ => 0)) k).1.bestLenGlobal) ∧
    (∀ k st, (runCycle (runTrace (mkEngine ⟨fun x => x, fun x _ => x⟩ [(0, 0), (3, 4)]
        1 5 (1/2) 100 none (fun _ => 0)) k).1).2 = some st →
      ¬ ((st.best_len_cycle : WithTop ℚ)
          < (runTrace (mkEngine ⟨fun x => x, fun x _ => x⟩ [(0, 0), (3, 4)]
        1 5 (1/2) 100 none (fun _ => 0)) k).1.bestLenGlobal) →
      (runCycle (runTrace (mkEngine ⟨fun x => x, fun x _ => x⟩ [(0, 0), (3, 4)]
        1 5 (1/2) 100 none (fun _ => 0)) k).1).1.bestLenGlobal
          = (runTrace (mkEngine ⟨fun x => x, fun x _ => x⟩ [(0, 0), (3, 4)]
        1 5 (1/2) 100 none (fun _ => 0)) k).1.bestLenGlobal ∧
      (runCycle (runTrace (mkEngine ⟨fun x => x, fun x _ => x⟩ [(0, 0), (3, 4)]
        1 5 (1/2) 100 none (fun _ => 0)) k).1).1.bestTourGlobal
          = (runTrace (mkEngine ⟨fun x => x, fun x _ => x⟩ [(0, 0), (3, 4)]
        1 5 (1/2) 100 none (fun _ => 0)) k).1.bestTourGlobal) :=
  spec_best_global (mkEngine ⟨fun x => x, fun x _ => x⟩ [(0, 0), (3, 4)]
    1 5 (1/2) 100 none (fun _ => 0)) rfl (by decide) (by decide)

theorem mem_unvisitedOf (n : ℕ) (tour : List ℕ) (c : ℕ) :
    c ∈ unvisitedOf n tour ↔ c < n ∧ c ∉ tour := by
  simp [unvisitedOf, List.mem_filter, List.mem_range]

theorem unvisitedOf_ne_nil (n : ℕ) (tour : List ℕ) (hnd : tour.Nodup)
    (hlt : tour.length < n) : unvisitedOf n tour ≠ [] := by
  intro h
  have hsub : Finset.range n ⊆ tour.toFinset := by
    intro c hc
    rw [List.mem_toFinset]
    by_contra hcm
    have hmem : c ∈ unvisitedOf n tour :=
      (mem_unvisitedOf _ _ _).2 ⟨Finset.mem_range.1 hc, hcm⟩
    rw [h] at hmem
    exact (List.not_mem_nil c) hmem
  have h1 := Finset.card_le_card hsub
  rw [Finset.card_range] at h1
  have h2 := List.toFinset_card_le tour
  omega

theorem tourStep_mem (ops : NumOps) (tau eta : ℕ → ℕ → ℚ) (alpha beta : ℚ)
    (n : ℕ) (tour : List ℕ) (current : ℕ) (r : ℚ)
    (hne : unvisitedOf n tour ≠ []) :
    tourStep ops tau eta alpha beta n tour current r ∈ unvisitedOf n tour := by
  unfold tourStep
  dsimp only
  set u := unvisitedOf n tour with hu
  have hul : 0 < u.length := List.length_pos.2 hne
  set k := searchsortedLeft
    (cumsum (if (u.map (fun c => ops.fpow (tau current c) alpha *
      ops.fpow (eta current c) beta)).sum = 0
      then u.map fun _ => 1 / (u.length : ℚ)
      else (u.map (fun c => ops.fpow (tau current c) alpha *
        ops.fpow (eta current c) beta)).map fun sc =>
          sc / (u.map (fun c => ops.fpow (tau current c) alpha *
            ops.fpow (eta current c) beta)).sum)) r with hk
  have hidx : (if u.length ≤ k then u.length - 1 else k) < u.length := by
    split_ifs with h <;> omega
  rw [List.getD_eq_getElem u 0 hidx]
  exact List.getElem_mem hidx

/-- The while loop of the reference builder: from a nonempty duplicate-free
partial tour of cities below n with enough fuel, it reaches length exactly
n, stays duplicate-free and below n, preserves the head, and consumes one
draw per added city. -/
theorem buildAux_spec (ops : NumOps) (tau eta : ℕ → ℕ → ℚ) (alpha beta : ℚ)
    (n : ℕ) (stream : ℕ → ℚ) :
    ∀ (fuel : ℕ) (tour : List ℕ) (current idx : ℕ),
      tour ≠ [] → tour.Nodup → (∀ c ∈ tour, c < n) →
      tour.length ≤ n → n ≤ tour.length + fuel →
      (buildAux ops tau eta alpha beta n stream fuel tour current idx).1.length = n ∧
      (buildAux ops tau eta alpha beta n stream fuel tour current idx).1.Nodup ∧
      (∀ c ∈ (buildAux ops tau eta alpha beta n stream fuel tour current idx).1, c < n) ∧
      (buildAux ops tau eta alpha beta n stream fuel tour current idx).1.head? = tour.head? ∧
      (buildAux ops tau eta alpha beta n stream fuel tour current idx).2
        = idx + (n - tour.length) := by
  intro fuel
  induction fuel with
  | zero =>
    intro tour current idx hne hnd hb hle hfe
    have hlen : tour.length = n := by omega
    unfold buildAux
    exact ⟨hlen, hnd, hb, rfl, by omega⟩
  | succ fuel ih =>
    intro tour current idx hne hnd hb hle hfe
    unfold buildAux
    by_cases hlt : tour.length < n
    · rw [if_pos hlt]
      have hune := unvisitedOf_ne_nil n tour hnd hlt
      rw [if_neg hune]
      have hmem := tourStep_mem ops tau eta alpha beta n tour current
        (stream idx) hune
      rw [mem_unvisitedOf] at hmem
      set next := tourStep ops tau eta alpha beta n tour current (stream idx)
        with hnext
      have hne2 : tour ++ [next] ≠ [] := by simp
      have hnd2 : (tour ++ [next]).Nodup := by
        rw [List.nodup_append]
        exact ⟨hnd, List.nodup_singleton next,
          by simpa [List.disjoint_singleton] using hmem.2⟩
      have hb2 : ∀ c ∈ tour ++ [next], c < n := by
        intro c hc
        rcases List.mem_append.1 hc with h | h
        · exact hb c h
        · rw [List.mem_singleton] at h
          subst h
          exact hmem.1
      have hlen2 : (tour ++ [next]).length = tour.length + 1 := by simp
      have hrec := ih (tour ++ [next]) next (idx + 1) hne2 hnd2 hb2
        (by omega) (by omega)
      refine ⟨hrec.1, hrec.2.1, hrec.2.2.1, ?_, ?_⟩
      · rw [hrec.2.2.2.1]
        cases tour with
        | nil => exact absurd rfl hne
        | cons a t => rfl
      · rw [hrec.2.2.2.2, hlen2]
        omega
    · rw [if_neg hlt]
      have hlen : tour.length = n := by omega
      exact ⟨hlen, hnd, hb, rfl, by omega⟩

theorem mem_iff_lt_of_nodup_length (t : List ℕ) (n : ℕ) (hnd : t.Nodup)
    (hb : ∀ c ∈ t, c < n) (hlen : t.length = n) : ∀ c, c ∈ t ↔ c < n := by
  have hsub : t.toFinset ⊆ Finset.range n := by
    intro c hc
    rw [List.mem_toFinset] at hc
    exact Finset.mem_range.2 (hb c hc)
  have hcard : (Finset.range n).card ≤ t.toFinset.card := by
    rw [Finset.card_range, List.toFinset_card_of_nodup hnd, hlen]
  have heq := Finset.eq_of_subset_of_card_le hsub hcard
  intro c
  constructor
  · exact hb c
  · intro hc
    have : c ∈ t.toFinset := by
      rw [heq]
      exact Finset.mem_range.2 hc
    exact List.mem_toFinset.1 this

/-- The full specification of _build_probabilistic_tour: from a start city
below n it returns a closed tour of length n+1 whose first and last entries
are the start city and whose first n entries are exactly the n cities, each
once; it consumes exactly n-1 draws. -/
theorem buildTour_spec (ops : NumOps) (tau eta : ℕ → ℕ → ℚ)
    (alpha beta : ℚ) (n : ℕ) (stream : ℕ → ℚ) (idx start : ℕ)
    (hs : start < n) :
    (buildTour ops tau eta alpha beta n stream idx start).1.length = n + 1 ∧
    (buildTour ops tau eta alpha beta n stream idx start).1.head? = some start ∧
    (buildTour ops tau eta alpha beta n stream idx start).1.getLast? = some start ∧
    (buildTour ops tau eta alpha beta n stream idx start).1.dropLast.Nodup ∧
    (∀ c, c ∈ (buildTour ops tau eta alpha beta n stream idx start).1.dropLast
      ↔ c < n) ∧
    (buildTour ops tau eta alpha beta n stream idx start).2 = idx + (n - 1) := by
  have h := buildAux_spec ops tau eta alpha beta n stream n [start] start idx
    (by simp) (List.nodup_singleton start) (by simpa using hs)
    (by simp only [List.length_singleton]; omega) (by simp)
  unfold buildTour
  dsimp only
  set r := buildAux ops tau eta alpha beta n stream n [start] start idx
  obtain ⟨hlen, hnd, hbnd, hhd, hidx⟩ := h
  have hdrop : (r.1 ++ [start]).dropLast = r.1 := List.dropLast_concat
  refine ⟨?_, ?_, List.getLast?_concat r.1, ?_, ?_, ?_⟩
  · simp [hlen]
  · rw [List.head?_append]
    rw [hhd]
    rfl
  · rw [hdrop]; exact hnd
  · intro c
    rw [hdrop]
    exact mem_iff_lt_of_nodup_length r.1 n hnd hbnd hlen c
  · simpa using hidx

/-- Validity of every tour produced by the construction loop, together with
the start city of the ant at each position (round-robin k mod n). -/
theorem constructFrom_valid (s : EngineState) (hn : 1 ≤ s.n) :
    ∀ (cnt k idx : ℕ),
    (∀ t ∈ (constructFrom s k cnt idx).1,
      t.length = s.n + 1 ∧ t.head? = t.getLast? ∧ t.dropLast.Nodup ∧
      (∀ c, c ∈ t.dropLast ↔ c < s.n)) ∧
    (∀ j, j < cnt →
      ((constructFrom s k cnt idx).1.getD j []).head? = some ((k + j) % s.n)) := by
  intro cnt
  induction cnt with
  | zero =>
    intro k idx
    constructor
    · intro t ht
      exact absurd ht (List.not_mem_nil t)
    · intro j hj
      omega
  | succ cnt ih =>
    intro k idx
    have hs : k % s.n < s.n := Nat.mod_lt _ hn
    have bts := buildTour_spec s.ops s.tau s.eta s.alpha s.beta s.n
      s.rngStream idx (k % s.n) hs
    constructor
    · intro t ht
      rw [constructFrom] at ht
      rcases List.mem_cons.1 ht with h | h
      · subst h
        exact ⟨bts.1, bts.2.1.trans bts.2.2.1.symm, bts.2.2.2.1, bts.2.2.2.2.1⟩
      · exact (ih (k + 1) _).1 t h
    · intro j hj
      cases j with
      | zero =>
        show ((constructFrom s k (cnt + 1) idx).1.getD 0 []).head?
          = some ((k + 0) % s.n)
        rw [constructFrom]
        simpa using bts.2.1
      | succ j =>
        show ((constructFrom s k (cnt + 1) idx).1.getD (j + 1) []).head? = _
        rw [constructFrom]
        have := (ih (k + 1) ((buildTour s.ops s.tau s.eta s.alpha s.beta s.n
          s.rngStream idx (k % s.n)).2)).2 j (by omega)
        simpa [Nat.add_assoc, Nat.add_comm 1 j] using this

/-- C1: for an engine over n ≥ 2 cities, every tour constructed during a
run_cycle is a list of n+1 city indices whose first and last entries agree,
and whose first n entries are pairwise distinct and are exactly the cities
0..n-1 — no duplicates, no omissions; moreover ant j starts at city
j mod n. -/
theorem spec_tour_validity (s : EngineState) (h2 : 2 ≤ s.n) :
    (∀ t ∈ (constructTours s).1,
      t.length = s.n + 1 ∧ t.head? = t.getLast? ∧ t.dropLast.Nodup ∧
      (∀ c, c ∈ t.dropLast ↔ c < s.n)) ∧
    (∀ j, j < s.m →
      ((constructTours s).1.getD j []).head? = some (j % s.n)) := by
  have h := constructFrom_valid s (by omega) s.m 0 s.rngIdx
  refine ⟨h.1, ?_⟩
  intro j hj
  simpa using h.2 j hj

/-- Witness for C1 at a concrete 3-city engine. -/
theorem spec_tour_validity_witness :
    (∀ t ∈ (constructTours (mkEngine ⟨fun x => x, fun x _ => x⟩
        [(0, 0), (3, 4), (1, 1)] 1 5 (1/2) 100 none (fun _ => 0))).1,
      t.length = (mkEngine ⟨fun x => x, fun x _ => x⟩
        [(0, 0), (3, 4), (1, 1)] 1 5 (1/2) 100 none (fun _ => 0)).n + 1 ∧
      t.head? = t.getLast? ∧ t.dropLast.Nodup ∧
      (∀ c, c ∈ t.dropLast ↔ c < (mkEngine ⟨fun x => x, fun x _ => x⟩
        [(0, 0), (3, 4), (1, 1)] 1 5 (1/2) 100 none (fun _ => 0)).n)) ∧
    (∀ j, j < (mkEngine ⟨fun x => x, fun x _ => x⟩
        [(0, 0), (3, 4), (1, 1)] 1 5 (1/2) 100 none (fun _ => 0)).m →
      ((constructTours (mkEngine ⟨fun x => x, fun x _ => x⟩
        [(0, 0), (3, 4), (1, 1)] 1 5 (1/2) 100 none (fun _ => 0))).1.getD j []).head?
        = some (j % (mkEngine ⟨fun x => x, fun x _ => x⟩
        [(0, 0), (3, 4), (1, 1)] 1 5 (1/2) 100 none (fun _ => 0)).n)) :=
  spec_tour_validity (mkEngine ⟨fun x => x, fun x _ => x⟩
    [(0, 0), (3, 4), (1, 1)] 1 5 (1/2) 100 none (fun _ => 0)) (by decide)

theorem cumsumFrom_length (c : ℚ) (l : List ℚ) :
    (cumsumFrom c l).length = l.length := by
  induction l generalizing c with
  | nil => rfl
  | cons x xs ih => simp [cumsumFrom, ih]

theorem cumsumFrom_ge (l : List ℚ) (hl : ∀ y ∈ l, 0 ≤ y) :
    ∀ (c : ℚ), ∀ x ∈ cumsumFrom c l, c ≤ x := by
  induction l with
  | nil => intro c x hx; exact absurd hx (List.not_mem_nil x)
  | cons y ys ih =>
    intro c x hx
    have hy : 0 ≤ y := hl y (List.mem_cons_self y ys)
    rcases List.mem_cons.1 hx with h | h
    · subst h; linarith
    · have := ih (fun z hz => hl z (List.mem_cons_of_mem y hz)) (c + y) x h
      linarith

theorem countP_cumsumFrom_of_ge (r c : ℚ) (l : List ℚ)
    (hl : ∀ y ∈ l, 0 ≤ y) (hc : r ≤ c) :
    (cumsumFrom c l).countP (fun x => decide (x < r)) = 0 := by
  rw [List.countP_eq_zero]
  intro x hx
  have := cumsumFrom_ge l hl c x hx
  simp only [decide_eq_true_eq]
  linarith

theorem cumsumFrom_sum_mem (l : List ℚ) (h : l ≠ []) :
    ∀ c : ℚ, c + l.sum ∈ cumsumFrom c l := by
  induction l with
  | nil => exact absurd rfl h
  | cons x xs ih =>
    intro c
    cases hxs : xs with
    | nil =>
      subst hxs
      simp [cumsumFrom]
    | cons z zs =>
      have hne : xs ≠ [] := by rw [hxs]; exact List.cons_ne_nil z zs
      rw [← hxs]
      have := ih hne (c + x)
      rw [cumsumFrom, List.sum_cons, List.mem_cons]
      right
      rw [← add_assoc]
      exact this

/-- On a cumulative-sum list of nonnegative increments (a sorted ascending
array), np.searchsorted with side left — the count of entries strictly
below the draw — coincides with the first index whose entry meets or
exceeds the draw, and lies inside the array whenever some entry meets the
draw. -/
theorem countP_eq_findIdx_cumsum (r : ℚ) :
    ∀ (l : List ℚ) (c : ℚ), (∀ y ∈ l, 0 ≤ y) →
    (∃ x ∈ cumsumFrom c l, r ≤ x) →
    (cumsumFrom c l).countP (fun x => decide (x < r))
      = (cumsumFrom c l).findIdx (fun x => decide (r ≤ x)) ∧
    (cumsumFrom c l).countP (fun x => decide (x < r))
      < (cumsumFrom c l).length := by
  intro l
  induction l with
  | nil =>
    intro c _ hex
    obtain ⟨x, hx, _⟩ := hex
    exact absurd hx (List.not_mem_nil x)
  | cons y ys ih =>
    intro c hnn hex
    have hynn : 0 ≤ y := hnn y (List.mem_cons_self y ys)
    have hnn2 : ∀ z ∈ ys, 0 ≤ z := fun z hz => hnn z (List.mem_cons_of_mem y hz)
    rw [cumsumFrom] at hex ⊢
    by_cases hry : r ≤ c + y
    · have hcount : List.countP (fun x => decide (x < r))
          ((c + y) :: cumsumFrom (c + y) ys) = 0 := by
        rw [List.countP_eq_zero]
        intro x hx
        rcases List.mem_cons.1 hx with h | h
        · subst h
          simp only [decide_eq_true_eq]
          linarith
        · have := cumsumFrom_ge ys hnn2 (c + y) x h
          simp only [decide_eq_true_eq]
          linarith
      have hfind : List.findIdx (fun x => decide (r ≤ x))
          ((c + y) :: cumsumFrom (c + y) ys) = 0 := by
        rw [List.findIdx_cons, decide_eq_true hry]
        rfl
      rw [hcount, hfind]
      exact ⟨rfl, by simp⟩
    · push_neg at hry
      have hex2 : ∃ x ∈ cumsumFrom (c + y) ys, r ≤ x := by
        obtain ⟨x, hx, hrx⟩ := hex
        rcases List.mem_cons.1 hx with h | h
        · subst h; exact absurd hrx (not_le.2 hry)
        · exact ⟨x, h, hrx⟩
      have hih := ih (c + y) hnn2 hex2
      have hcount : List.countP (fun x => decide (x < r))
          ((c + y) :: cumsumFrom (c + y) ys)
          = List.countP (fun x => decide (x < r)) (cumsumFrom (c + y) ys) + 1 := by
        rw [List.countP_cons, decide_eq_true hry]
        rfl
      have hfind : List.findIdx (fun x => decide (r ≤ x))
          ((c + y) :: cumsumFrom (c + y) ys)
          = List.findIdx (fun x => decide (r ≤ x)) (cumsumFrom (c + y) ys) + 1 := by
        rw [List.findIdx_cons, decide_eq_false (not_le.2 hry)]
        rfl
      rw [hcount, hfind, hih.1]
      refine ⟨rfl, ?_⟩
      simp only [List.length_cons]
      have := hih.2
      omega

theorem sum_map_div (l : List ℚ) (T : ℚ) :
    (l.map (fun x => x / T)).sum = l.sum / T := by
  induction l with
  | nil => simp
  | cons x xs ih => simp [ih, add_div]

theorem sum_map_const {α : Type} (l : List α) (q : ℚ) :
    (l.map (fun _ => q)).sum = l.length * q := by
  induction l with
  | nil => simp
  | cons x xs ih =>
    simp only [List.map_cons, List.sum_cons, ih, List.length_cons]
    push_cast
    ring

theorem cumsumFrom_map_const_getD {α : Type} (q : ℚ) :
    ∀ (l : List α) (c : ℚ) (k : ℕ), k < l.length →
    (cumsumFrom c (l.map fun _ => q)).getD k 0 = c + ((k : ℚ) + 1) * q := by
  intro l
  induction l with
  | nil => intro c k hk; simp at hk
  | cons x xs ih =>
    intro c k hk
    cases k with
    | zero =>
      simp only [List.map_cons, cumsumFrom, List.getD_cons_zero]
      push_cast
      ring
    | succ k =>
      simp only [List.map_cons, cumsumFrom, List.getD_cons_succ]
      have hk2 : k < xs.length := by simpa using hk
      rw [ih (c + q) k hk2]
      push_cast
      ring

/-- The clamped searchsorted roulette of the source equals the first index
whose cumulative probability meets or exceeds the draw, for any probability
vector (nonnegative, summing to 1) and any draw in [0,1). -/
theorem roulette_select_eq (u : List ℕ) (probs : List ℚ) (r : ℚ)
    (hlen : probs.length = u.length) (hnn : ∀ y ∈ probs, 0 ≤ y)
    (hsum : probs.sum = 1) (hr1 : r < 1) (hune : u ≠ []) :
    u.getD (if u.length ≤ searchsortedLeft (cumsum probs) r
      then u.length - 1 else searchsortedLeft (cumsum probs) r) 0
      = u.getD (specRouletteIndex probs r) 0 := by
  have hpne : probs ≠ [] := by
    intro h
    rw [h] at hlen
    exact hune (List.length_eq_zero.1 hlen.symm)
  have hex : ∃ x ∈ cumsum probs, r ≤ x := by
    refine ⟨0 + probs.sum, cumsumFrom_sum_mem probs hpne 0, ?_⟩
    rw [hsum]
    linarith
  have key := countP_eq_findIdx_cumsum r probs 0 hnn hex
  have hlt : searchsortedLeft (cumsum probs) r < u.length := by
    have h2 := key.2
    rw [cumsumFrom_length] at h2
    unfold searchsortedLeft cumsum
    omega
  rw [if_neg (not_le.2 hlt)]
  unfold searchsortedLeft specRouletteIndex cumsum
  rw [key.1]

/-- C7: each construction step of the reference builder consumes exactly one
draw and selects as the spec describes — when the score total is nonzero,
the first unvisited city whose cumulative normalized-score probability
meets or exceeds the draw; when the score total is zero, the same
inverse-CDF rule applied to equal probabilities 1/u over the u unvisited
cities, whose cumulative distribution takes the value (k+1)/u at position k
(equal 1/u-wide slices of [0,1): a uniform selection); the whole builder
consumes exactly n-1 draws, one per step. -/
theorem spec_roulette_step (ops : NumOps) (tau eta : ℕ → ℕ → ℚ)
    (alpha beta : ℚ) (n : ℕ)
    (hfp : ∀ x y, 0 ≤ ops.fpow x y) :
    (∀ (tour : List ℕ) (current : ℕ) (r : ℚ), 0 ≤ r → r < 1 →
      unvisitedOf n tour ≠ [] →
      tourStep ops tau eta alpha beta n tour current r
        = specSelectNext ops tau eta alpha beta n tour current r) ∧
    (∀ (u : List ℕ) (k : ℕ), k < u.length →
      (cumsum (u.map fun _ => 1 / (u.length : ℚ))).getD k 0
        = ((k : ℚ) + 1) / (u.length : ℚ)) ∧
    (∀ (stream : ℕ → ℚ) (idx start : ℕ), start < n →
      (buildTour ops tau eta alpha beta n stream idx start).2
        = idx + (n - 1)) := by
  refine ⟨?_, ?_, ?_⟩
  · intro tour current r hr0 hr1 hne
    unfold tourStep specSelectNext
    dsimp only
    set u := unvisitedOf n tour with hu
    set scores := u.map
      (fun c => ops.fpow (tau current c) alpha * ops.fpow (eta current c) beta)
      with hscores
    set probs := if scores.sum = 0 then u.map (fun _ => 1 / (u.length : ℚ))
      else scores.map (fun sc => sc / scores.sum) with hprobs
    have hulen : u.length ≠ 0 := by
      intro h
      exact hne (List.length_eq_zero.1 h)
    have hslen : scores.length = u.length := by
      rw [hscores, List.length_map]
    have hlen : probs.length = u.length := by
      rw [hprobs]
      split_ifs <;> simp [hslen]
    have hsnn : ∀ y ∈ scores, 0 ≤ y := by
      intro y hy
      rw [hscores] at hy
      obtain ⟨c, _, hc⟩ := List.mem_map.1 hy
      rw [← hc]
      exact mul_nonneg (hfp _ _) (hfp _ _)
    have hnn : ∀ y ∈ probs, 0 ≤ y := by
      rw [hprobs]
      split_ifs with h
      · intro y hy
        obtain ⟨c, _, hc⟩ := List.mem_map.1 hy
        rw [← hc]
        positivity
      · intro y hy
        obtain ⟨sc, hsc, hc⟩ := List.mem_map.1 hy
        rw [← hc]
        exact div_nonneg (hsnn sc hsc) (List.sum_nonneg hsnn)
    have hsum : probs.sum = 1 := by
      rw [hprobs]
      split_ifs with h
      · rw [sum_map_const]
        have : (u.length : ℚ) ≠ 0 := Nat.cast_ne_zero.2 hulen
        field_simp
      · rw [sum_map_div]
        exact div_self h
    exact congrArg (fun ix => u.getD ix 0) rfl ▸
      roulette_select_eq u probs r hlen hnn hsum hr1
        (fun h => hne (hu ▸ h))
  · intro u k hk
    have := cumsumFrom_map_const_getD (1 / (u.length : ℚ)) u 0 k hk
    unfold cumsum
    rw [this, zero_add, mul_one_div]
  · intro stream idx start hs
    exact (buildTour_spec ops tau eta alpha beta n stream idx start hs).2.2.2.2.2

/-- Witness for C7 with a constant-one power function (nonnegative). -/
theorem spec_roulette_step_witness :
    (∀ (tour : List ℕ) (current : ℕ) (r : ℚ), 0 ≤ r → r < 1 →
      unvisitedOf 3 tour ≠ [] →
      tourStep ⟨fun x => x, fun _ _ => 1⟩ initPheromones initPheromones 1 5 3
        tour current r
        = specSelectNext ⟨fun x => x, fun _ _ => 1⟩ initPheromones
          initPheromones 1 5 3 tour current r) ∧
    (∀ (u : List ℕ) (k : ℕ), k < u.length →
      (cumsum (u.map fun _ => 1 / (u.length : ℚ))).getD k 0
        = ((k : ℚ) + 1) / (u.length : ℚ)) ∧
    (∀ (stream : ℕ → ℚ) (idx start : ℕ), start < 3 →
      (buildTour ⟨fun x => x, fun _ _ => 1⟩ initPheromones initPheromones
        1 5 3 stream idx start).2 = idx + (3 - 1)) :=
  spec_roulette_step ⟨fun x => x, fun _ _ => 1⟩ initPheromones initPheromones
    1 5 3 (fun _ _ => zero_le_one)

/-! ## Equivalence of the masked full-array roulette (optimized engine) with
the filtered sub-array roulette (reference engine) -/

theorem map_masked_nonneg (g : ℕ → ℚ) (v : ℕ → Bool) (hg : ∀ j, 0 ≤ g j)
    (L : List ℕ) : ∀ y ∈ L.map (fun j => if v j then 0 else g j), 0 ≤ y := by
  intro y hy
  obtain ⟨x, _, hx⟩ := List.mem_map.1 hy
  rw [← hx]
  split_ifs
  · exact le_refl 0
  · exact hg x

theorem sum_map_masked (g : ℕ → ℚ) (v : ℕ → Bool) :
    ∀ L : List ℕ, (L.map (fun j => if v j then 0 else g j)).sum
      = ((L.filter (fun j => !v j)).map g).sum := by
  intro L
  induction L with
  | nil => rfl
  | cons j L ih =>
    by_cases hv : v j
    · simp [List.filter_cons, hv, ih]
    · simp [List.filter_cons, hv, ih]

theorem countP_cons_lt (r c : ℚ) (l : List ℚ) (hc : c < r) :
    (c :: l).countP (fun x => decide (x < r))
      = l.countP (fun x => decide (x < r)) + 1 :=
  @List.countP_cons_of_pos ℚ (fun x => decide (x < r)) c l (decide_eq_true hc)

theorem countP_cons_ge (r c : ℚ) (l : List ℚ) (hc : ¬ c < r) :
    (c :: l).countP (fun x => decide (x < r))
      = l.countP (fun x => decide (x < r)) :=
  @List.countP_cons_of_neg ℚ (fun x => decide (x < r)) c l (by simpa using hc)

/-- Selecting by searchsorted on the cumulative sums of the full masked
probability array (zeros at visited positions) picks the same city as
selecting on the cumulative sums of the unvisited sub-array and indexing
into the unvisited list, whenever the draw is strictly positive and the
sub-array count stays in range. -/
theorem select_masked_eq (g : ℕ → ℚ) (v : ℕ → Bool) (r : ℚ)
    (hg : ∀ j, 0 ≤ g j) :
    ∀ (L : List ℕ) (c : ℚ), c < r →
    (cumsumFrom c ((L.filter (fun j => !v j)).map g)).countP
        (fun x => decide (x < r)) < (L.filter (fun j => !v j)).length →
    ((cumsumFrom c (L.map (fun j => if v j then 0 else g j))).countP
        (fun x => decide (x < r)) < L.length ∧
      L.getD ((cumsumFrom c (L.map (fun j => if v j then 0 else g j))).countP
        (fun x => decide (x < r))) 0
        = (L.filter (fun j => !v j)).getD
            ((cumsumFrom c ((L.filter (fun j => !v j)).map g)).countP
              (fun x => decide (x < r))) 0) := by
  intro L
  induction L with
  | nil =>
    intro c _ hcount
    simp at hcount
  | cons j L ih =>
    intro c hc hcount
    by_cases hv : v j
    · have hfil : (j :: L).filter (fun j => !v j) = L.filter (fun j => !v j) := by
        simp [List.filter_cons, hv]
      rw [hfil] at hcount ⊢
      have hmap : (j :: L).map (fun j => if v j then 0 else g j)
          = 0 :: L.map (fun j => if v j then 0 else g j) := by
        simp [hv]
      rw [hmap, cumsumFrom, add_zero, countP_cons_lt r c _ hc]
      have hih := ih c hc hcount
      refine ⟨?_, ?_⟩
      · simp only [List.length_cons]
        omega
      · rw [List.getD_cons_succ]
        exact hih.2
    · have hvf : v j = false := by simpa using hv
      have hfil : (j :: L).filter (fun j => !v j)
          = j :: L.filter (fun j => !v j) := by
        simp [List.filter_cons, hvf]
      have hmap : (j :: L).map (fun j => if v j then 0 else g j)
          = g j :: L.map (fun j => if v j then 0 else g j) := by
        simp [hvf]
      rw [hfil] at hcount ⊢
      rw [hmap, cumsumFrom]
      rw [List.map_cons, cumsumFrom] at hcount ⊢
      by_cases hlt : c + g j < r
      · rw [countP_cons_lt r _ _ hlt] at hcount ⊢
        rw [countP_cons_lt r _ _ hlt]
        have hcount2 : (cumsumFrom (c + g j)
            ((L.filter (fun j => !v j)).map g)).countP
              (fun x => decide (x < r)) < (L.filter (fun j => !v j)).length := by
          simp only [List.length_cons] at hcount
          omega
        have hih := ih (c + g j) hlt hcount2
        refine ⟨?_, ?_⟩
        · simp only [List.length_cons]
          omega
        · rw [List.getD_cons_succ, List.getD_cons_succ]
          exact hih.2
      · push_neg at hlt
        have hfull0 : (cumsumFrom (c + g j)
            (L.map (fun j => if v j then 0 else g j))).countP
              (fun x => decide (x < r)) = 0 :=
          countP_cumsumFrom_of_ge r (c + g j) _
            (map_masked_nonneg g v hg L) hlt
        have hsub0 : (cumsumFrom (c + g j)
            ((L.filter (fun j => !v j)).map g)).countP
              (fun x => decide (x < r)) = 0 :=
          countP_cumsumFrom_of_ge r (c + g j) _
            (fun y hy => by
              obtain ⟨x, _, hx⟩ := List.mem_map.1 hy
              rw [← hx]; exact hg x) hlt
        rw [countP_cons_ge r _ _ (not_lt.2 hlt), countP_cons_ge r _ _ (not_lt.2 hlt),
          hfull0, hsub0]
        simp

/-- One selection step of the optimized builder coincides with one selection
step of the reference builder (and consumes the same single draw) whenever
the visited mask agrees with the reference tour, all unvisited scores are
positive, and the draw lies strictly inside (0,1). -/
theorem optStep_eq (ops : NumOps) (choice : ChoiceFn) (tau eta : ℕ → ℕ → ℚ)
    (alpha beta : ℚ) (n : ℕ) (v : ℕ → Bool) (tour : List ℕ) (current : ℕ)
    (stream : ℕ → ℚ) (idx : ℕ)
    (hv : ∀ c, v c = tour.contains c)
    (hfpnn : ∀ x y, 0 ≤ ops.fpow x y)
    (hw : ∀ j, j < n → j ∉ tour →
      0 < ops.fpow (tau current j) alpha * ops.fpow (eta current j) beta)
    (hne : unvisitedOf n tour ≠ [])
    (hr0 : 0 < stream idx) (hr1 : stream idx < 1) :
    optStep ops choice tau eta alpha beta n v current stream idx
      = (tourStep ops tau eta alpha beta n tour current (stream idx), idx + 1) := by
  have hvfun : v = fun c => tour.contains c := funext hv
  subst hvfun
  set r := stream idx with hr
  set w : ℕ → ℚ :=
    fun j => ops.fpow (tau current j) alpha * ops.fpow (eta current j) beta
    with hwdef
  set u := unvisitedOf n tour with hu
  -- the reference scores and their total
  set T := (u.map w).sum with hT
  have humem : ∀ j ∈ u, j < n ∧ j ∉ tour := by
    intro j hj
    exact (mem_unvisitedOf n tour j).1 hj
  have hTpos : 0 < T := by
    rw [hT]
    refine List.sum_pos _ ?_ ?_
    · intro x hx
      obtain ⟨j, hj, hjx⟩ := List.mem_map.1 hx
      rw [← hjx]
      exact hw j (humem j hj).1 (humem j hj).2
    · intro hmap
      exact hne (by simpa [hu] using List.map_eq_nil.1 hmap)
  -- the optimized total equals the reference total
  have hTF : ((List.range n).map (fun c => if tour.contains c then 0 else w c)).sum
      = T := by
    rw [hT, hu]
    exact sum_map_masked w (fun c => tour.contains c) (List.range n)
  -- both sides take their roulette branch
  unfold optStep tourStep
  dsimp only
  rw [hTF, if_pos hTpos, if_neg (ne_of_gt hTpos)]
  -- normalize the two probability vectors
  have hwnn : ∀ j, (0 : ℚ) ≤ w j := fun j => mul_nonneg (hfpnn _ _) (hfpnn _ _)
  have hsubprobs : (u.map w).map (fun sc => sc / T) = u.map (fun j => w j / T) := by
    rw [List.map_map]
    rfl
  have hfullprobs :
      ((List.range n).map (fun c => if tour.contains c then 0 else w c)).map
        (fun sc => sc / T)
      = (List.range n).map
          (fun j => if tour.contains j then 0 else w j / T) := by
    rw [List.map_map]
    refine List.map_congr_left ?_
    intro a _
    dsimp only [Function.comp]
    split_ifs
    · exact zero_div T
    · rfl
  rw [hsubprobs, hfullprobs]
  -- the sub-array count is in range
  have hgnn : ∀ j, 0 ≤ w j / T := fun j => div_nonneg (hwnn j) (le_of_lt hTpos)
  have hpnn : ∀ y ∈ u.map (fun j => w j / T), 0 ≤ y := by
    intro y hy
    obtain ⟨j, _, hj⟩ := List.mem_map.1 hy
    rw [← hj]
    exact hgnn j
  have hpsum : (u.map (fun j => w j / T)).sum = 1 := by
    have : u.map (fun j => w j / T) = (u.map w).map (fun x => x / T) := by
      rw [List.map_map]
      rfl
    rw [this, sum_map_div, ← hT, div_self (ne_of_gt hTpos)]
  have hpne : u.map (fun j => w j / T) ≠ [] := by
    intro h
    exact hne (by simpa [hu] using List.map_eq_nil.1 h)
  have hex : ∃ x ∈ cumsum (u.map (fun j => w j / T)), r ≤ x := by
    refine ⟨0 + (u.map (fun j => w j / T)).sum,
      cumsumFrom_sum_mem _ hpne 0, ?_⟩
    rw [hpsum]
    linarith
  have hkey := countP_eq_findIdx_cumsum r (u.map (fun j => w j / T)) 0 hpnn hex
  have hsubcount : searchsortedLeft (cumsum (u.map (fun j => w j / T))) r
      < u.length := by
    have h2 := hkey.2
    rw [cumsumFrom_length, List.length_map] at h2
    exact h2
  -- the main masked-selection equivalence over the full range
  have hfil_eq : (List.range n).filter (fun j => !(fun c => tour.contains c) j)
      = u := rfl
  have hsel := select_masked_eq (fun j => w j / T)
    (fun c => tour.contains c) r hgnn (List.range n) 0 hr0
    (by rw [hfil_eq]; exact hsubcount)
  rw [hfil_eq] at hsel
  obtain ⟨hfulllt, hfullsel⟩ := hsel
  dsimp only at hfulllt hfullsel
  rw [List.length_range] at hfulllt
  -- discharge the clamps and compute getD over range
  unfold searchsortedLeft cumsum
  unfold searchsortedLeft cumsum at hsubcount
  rw [if_neg (not_le.2 hfulllt), if_neg (not_le.2 hsubcount)]
  refine Prod.ext ?_ rfl
  dsimp only
  have hrange : (List.range n).getD
      ((cumsumFrom 0 ((List.range n).map
        (fun j => if tour.contains j then 0 else w j / T))).countP
        (fun x => decide (x < r))) 0
      = (cumsumFrom 0 ((List.range n).map
        (fun j => if tour.contains j then 0 else w j / T))).countP
        (fun x => decide (x < r)) := by
    rw [List.getD_eq_getElem _ _ (by simpa using hfulllt)]
    exact List.getElem_range _ _
  rw [← hrange]
  exact hfullsel

theorem contains_eq_decide_mem (l : List ℕ) (c : ℕ) :
    l.contains c = decide (c ∈ l) := by
  simp

/-- Once the partial tour already has n cities, the reference while loop
stops immediately whatever fuel remains. -/
theorem buildAux_stopped (ops : NumOps) (tau eta : ℕ → ℕ → ℚ)
    (alpha beta : ℚ) (n : ℕ) (stream : ℕ → ℚ) (fuel : ℕ) (tour : List ℕ)
    (current idx : ℕ) (hlen : ¬ tour.length < n) :
    buildAux ops tau eta alpha beta n stream fuel tour current idx
      = (tour, idx) := by
  cases fuel with
  | zero => rfl
  | succ fuel => unfold buildAux; rw [if_neg hlen]

/-- The for loop of the optimized builder retraces the while loop of the
reference builder step for step, given agreement of the visited mask with
the tour, positive scores between distinct cities below n, and draws
strictly inside (0,1). -/
theorem buildOptAux_eq (ops : NumOps) (choice : ChoiceFn)
    (tau eta : ℕ → ℕ → ℚ) (alpha beta : ℚ) (n : ℕ) (stream : ℕ → ℚ)
    (hfpnn : ∀ x y, 0 ≤ ops.fpow x y)
    (hwpos : ∀ cur j, cur < n → j < n → cur ≠ j →
      0 < ops.fpow (tau cur j) alpha * ops.fpow (eta cur j) beta)
    (hstream : ∀ i, 0 < stream i ∧ stream i < 1) :
    ∀ (steps fuel : ℕ) (tour : List ℕ) (v : ℕ → Bool) (current idx : ℕ),
      steps ≤ fuel → (∀ c, v c = tour.contains c) →
      tour ≠ [] → tour.Nodup → (∀ c ∈ tour, c < n) → current ∈ tour →
      tour.length + steps = n →
      buildOptAux ops choice tau eta alpha beta n stream steps v tour current idx
        = buildAux ops tau eta alpha beta n stream fuel tour current idx := by
  intro steps
  induction steps with
  | zero =>
    intro fuel tour v current idx _ _ _ _ _ _ hlen
    rw [buildAux_stopped ops tau eta alpha beta n stream fuel tour current idx
      (by omega)]
    rfl
  | succ steps ih =>
    intro fuel tour v current idx hsf hv hne hnd hb hcur hlen
    cases fuel with
    | zero => omega
    | succ fuel =>
      have hlt : tour.length < n := by omega
      have hune := unvisitedOf_ne_nil n tour hnd hlt
      unfold buildOptAux buildAux
      rw [if_pos hlt, if_neg hune]
      have hstep := optStep_eq ops choice tau eta alpha beta n v tour current
        stream idx hv hfpnn
        (fun j hj hjt => hwpos current j (hb current hcur) hj
          (fun hcj => hjt (hcj ▸ hcur)))
        hune (hstream idx).1 (hstream idx).2
      rw [hstep]
      dsimp only
      have hmem := tourStep_mem ops tau eta alpha beta n tour current
        (stream idx) hune
      rw [mem_unvisitedOf] at hmem
      set next := tourStep ops tau eta alpha beta n tour current (stream idx)
        with hnext
      have hv2 : ∀ c, (if c = next then true else v c)
          = (tour ++ [next]).contains c := by
        intro c
        rw [contains_eq_decide_mem]
        by_cases hc : c = next
        · subst hc
          rw [if_pos rfl]
          exact (decide_eq_true (by simp)).symm
        · rw [if_neg hc, hv c, contains_eq_decide_mem]
          by_cases hmem2 : c ∈ tour
          · rw [decide_eq_true hmem2, decide_eq_true (by simp [hmem2])]
          · rw [decide_eq_false hmem2, decide_eq_false (by simp [hmem2, hc])]
      exact ih fuel (tour ++ [next])
        (fun c => if c = next then true else v c) next (idx + 1)
        (by omega) hv2 (by simp)
        (by
          rw [List.nodup_append]
          exact ⟨hnd, List.nodup_singleton next,
            by simpa [List.disjoint_singleton] using hmem.2⟩)
        (by
          intro c hc
          rcases List.mem_append.1 hc with h | h
          · exact hb c h
          · rw [List.mem_singleton] at h
            subst h
            exact hmem.1)
        (by simp)
        (by simp; omega)

/-- The optimized _build_probabilistic_tour returns exactly the tour (and
cursor) of the reference one, under the same side conditions. -/
theorem buildTourOpt_eq (ops : NumOps) (choice : ChoiceFn)
    (tau eta : ℕ → ℕ → ℚ) (alpha beta : ℚ) (n : ℕ) (stream : ℕ → ℚ)
    (idx start : ℕ) (hs : start < n)
    (hfpnn : ∀ x y, 0 ≤ ops.fpow x y)
    (hwpos : ∀ cur j, cur < n → j < n → cur ≠ j →
      0 < ops.fpow (tau cur j) alpha * ops.fpow (eta cur j) beta)
    (hstream : ∀ i, 0 < stream i ∧ stream i < 1) :
    buildTourOpt ops choice tau eta alpha beta n stream idx start
      = buildTour ops tau eta alpha beta n stream idx start := by
  unfold buildTourOpt buildTour
  have haux := buildOptAux_eq ops choice tau eta alpha beta n stream
    hfpnn hwpos hstream (n - 1) n [start]
    (fun c => decide (c = start)) start idx
    (by omega)
    (by
      intro c
      rw [contains_eq_decide_mem]
      simp)
    (by simp) (List.nodup_singleton start) (by simpa using hs)
    (List.mem_singleton_self start) (by simp; omega)
  rw [haux]
  have hspec := buildAux_spec ops tau eta alpha beta n stream n [start]
    start idx (by simp) (List.nodup_singleton start) (by simpa using hs)
    (by simp; omega) (by simp)
  have htake : (buildAux ops tau eta alpha beta n stream n [start]
      start idx).1.take n
      = (buildAux ops tau eta alpha beta n stream n [start] start idx).1 :=
    List.take_of_length_le (le_of_eq hspec.1)
  dsimp only
  rw [htake]

theorem constructFromOpt_eq (choice : ChoiceFn) (s : EngineState)
    (hn : 1 ≤ s.n)
    (hfpnn : ∀ x y, 0 ≤ s.ops.fpow x y)
    (hwpos : ∀ cur j, cur < s.n → j < s.n → cur ≠ j →
      0 < s.ops.fpow (s.tau cur j) s.alpha * s.ops.fpow (s.eta cur j) s.beta)
    (hstream : ∀ i, 0 < s.rngStream i ∧ s.rngStream i < 1) :
    ∀ (cnt k idx : ℕ),
      constructFromOpt choice s k cnt idx = constructFrom s k cnt idx := by
  intro cnt
  induction cnt with
  | zero => intro k idx; rfl
  | succ cnt ih =>
    intro k idx
    unfold constructFromOpt constructFrom
    dsimp only
    rw [buildTourOpt_eq s.ops choice s.tau s.eta s.alpha s.beta s.n
      s.rngStream idx (k % s.n) (Nat.mod_lt _ hn) hfpnn hwpos hstream,
      ih (k + 1)]

/-- Pointwise effect of np.add.at over a pair list with a fixed increment. -/
theorem addAtPairs_apply (d : ℚ) :
    ∀ (prs : List (ℕ × ℕ)) (tau : ℕ → ℕ → ℚ) (i j : ℕ),
    addAtPairs tau prs d i j
      = tau i j + (prs.countP (fun ab => decide (i = ab.1 ∧ j = ab.2)) : ℚ) * d := by
  intro prs
  induction prs with
  | nil => intro tau i j; simp [addAtPairs]
  | cons ab prs ih =>
    intro tau i j
    show addAtPairs (depositAt tau ab.1 ab.2 d) prs d i j = _
    rw [ih, depositAt_apply]
    by_cases h : i = ab.1 ∧ j = ab.2
    · rw [if_pos h, @List.countP_cons_of_pos (ℕ × ℕ)
        (fun ab => decide (i = ab.1 ∧ j = ab.2)) ab prs (decide_eq_true h)]
      push_cast
      ring
    · rw [if_neg h, @List.countP_cons_of_neg (ℕ × ℕ)
        (fun ab => decide (i = ab.1 ∧ j = ab.2)) ab prs (by simpa using h)]
      push_cast
      ring

/-- Pointwise effect of the reference per-edge bidirectional deposits. -/
theorem foldl_depositEdge_apply (d : ℚ) :
    ∀ (prs : List (ℕ × ℕ)) (tau : ℕ → ℕ → ℚ) (i j : ℕ),
    (prs.foldl (fun t ab => depositEdge t ab.1 ab.2 d) tau) i j
      = tau i j + ((prs.countP (fun ab => decide (i = ab.1 ∧ j = ab.2)) : ℚ)
          + (prs.countP (fun ab => decide (i = ab.2 ∧ j = ab.1)) : ℚ)) * d := by
  intro prs
  induction prs with
  | nil => intro tau i j; simp
  | cons ab prs ih =>
    intro tau i j
    show (prs.foldl (fun t ab => depositEdge t ab.1 ab.2 d)
      (depositEdge tau ab.1 ab.2 d)) i j = _
    rw [ih, depositEdge_apply]
    by_cases h1 : i = ab.1 ∧ j = ab.2 <;> by_cases h2 : i = ab.2 ∧ j = ab.1
    · rw [if_pos h1, if_pos h2, @List.countP_cons_of_pos (ℕ × ℕ)
        (fun ab => decide (i = ab.1 ∧ j = ab.2)) ab prs (decide_eq_true h1),
        @List.countP_cons_of_pos (ℕ × ℕ)
        (fun ab => decide (i = ab.2 ∧ j = ab.1)) ab prs (decide_eq_true h2)]
      push_cast
      ring
    · rw [if_pos h1, if_neg h2, @List.countP_cons_of_pos (ℕ × ℕ)
        (fun ab => decide (i = ab.1 ∧ j = ab.2)) ab prs (decide_eq_true h1),
        @List.countP_cons_of_neg (ℕ × ℕ)
        (fun ab => decide (i = ab.2 ∧ j = ab.1)) ab prs (by simpa using h2)]
      push_cast
      ring
    · rw [if_neg h1, if_pos h2, @List.countP_cons_of_neg (ℕ × ℕ)
        (fun ab => decide (i = ab.1 ∧ j = ab.2)) ab prs (by simpa using h1),
        @List.countP_cons_of_pos (ℕ × ℕ)
        (fun ab => decide (i = ab.2 ∧ j = ab.1)) ab prs (decide_eq_true h2)]
      push_cast
      ring
    · rw [if_neg h1, if_neg h2, @List.countP_cons_of_neg (ℕ × ℕ)
        (fun ab => decide (i = ab.1 ∧ j = ab.2)) ab prs (by simpa using h1),
        @List.countP_cons_of_neg (ℕ × ℕ)
        (fun ab => decide (i = ab.2 ∧ j = ab.1)) ab prs (by simpa using h2)]
      push_cast
      ring

/-- The two deposit orders (per-edge bidirectional vs all-forward then
all-backward) produce the same pheromone matrix: rational addition is
commutative and associative. -/
theorem depositTourOpt_eq (Q : ℚ) (tau : ℕ → ℕ → ℚ) (tour : List ℕ) (L : ℚ) :
    depositTourOpt Q tau tour L = depositTour Q tau tour L := by
  funext i j
  unfold depositTourOpt depositTour
  rw [addAtPairs_apply, addAtPairs_apply, List.countP_map,
    foldl_depositEdge_apply]
  have hcomp : ((fun ab => decide (i = ab.1 ∧ j = ab.2)) ∘
      (fun ab : ℕ × ℕ => (ab.2, ab.1)))
      = fun ab : ℕ × ℕ => decide (i = ab.2 ∧ j = ab.1) := rfl
  rw [hcomp]
  push_cast
  ring

theorem depositAllOpt_eq (Q : ℚ) :
    ∀ (ts : List (List ℕ)) (Ls : List ℚ) (tau : ℕ → ℕ → ℚ),
    depositAllOpt Q tau ts Ls = depositAll Q tau ts Ls := by
  intro ts
  induction ts with
  | nil => intro Ls tau; cases Ls <;> rfl
  | cons t ts ih =>
    intro Ls tau
    cases Ls with
    | nil => rfl
    | cons L Ls =>
      show depositAllOpt Q (depositTourOpt Q tau t L) ts Ls = _
      rw [depositTourOpt_eq, ih]
      rfl

/-- One optimized cycle equals one reference cycle on any state whose
unvisited scores are positive between distinct cities below n and whose
draws lie strictly inside (0,1). -/
theorem runCycleOpt_eq (choice : ChoiceFn) (s : EngineState)
    (hn : 1 ≤ s.n)
    (hfpnn : ∀ x y, 0 ≤ s.ops.fpow x y)
    (hwpos : ∀ cur j, cur < s.n → j < s.n → cur ≠ j →
      0 < s.ops.fpow (s.tau cur j) s.alpha * s.ops.fpow (s.eta cur j) s.beta)
    (hstream : ∀ i, 0 < s.rngStream i ∧ s.rngStream i < 1) :
    runCycleOpt choice s = runCycle s := by
  have hct : constructToursOpt choice s = constructTours s :=
    constructFromOpt_eq choice s hn hfpnn hwpos hstream s.m 0 s.rngIdx
  unfold runCycleOpt runCycle
  rw [hct]
  simp only [depositAllOpt_eq]

/-- A matrix positive off the diagonal. -/
def PosOffDiag (f : ℕ → ℕ → ℚ) : Prop := ∀ i j, i ≠ j → 0 < f i j

theorem tourLength_nonneg (dist : ℕ → ℕ → ℚ) (hd : ∀ i j, 0 ≤ dist i j)
    (tour : List ℕ) : 0 ≤ tourLength dist tour := by
  unfold tourLength
  have key : ∀ (l : List (ℕ × ℕ)) (acc : ℚ), 0 ≤ acc →
      0 ≤ l.foldl (fun a ab => a + dist ab.1 ab.2) acc := by
    intro l
    induction l with
    | nil => intro acc h; exact h
    | cons ab l ih =>
      intro acc h
      exact ih _ (add_nonneg h (hd ab.1 ab.2))
  exact key _ 0 (le_refl 0)

theorem constructFrom_lengths_nonneg (s : EngineState)
    (hd : ∀ i j, 0 ≤ s.dist i j) :
    ∀ (cnt k idx : ℕ), ∀ L ∈ (constructFrom s k cnt idx).2.1, 0 ≤ L := by
  intro cnt
  induction cnt with
  | zero => intro k idx L hL; exact absurd hL (List.not_mem_nil L)
  | succ cnt ih =>
    intro k idx L hL
    rw [constructFrom] at hL
    rcases List.mem_cons.1 hL with h | h
    · subst h
      exact tourLength_nonneg s.dist hd _
    · exact ih (k + 1) _ L h

theorem depositEdge_posOffDiag (tau : ℕ → ℕ → ℚ) (a b : ℕ) (d : ℚ)
    (hd : 0 ≤ d) (h : PosOffDiag tau) : PosOffDiag (depositEdge tau a b d) := by
  intro i j hij
  rw [depositEdge_apply]
  have h1 : (0 : ℚ) ≤ if i = a ∧ j = b then d else 0 := by
    split_ifs
    · exact hd
    · exact le_refl 0
  have h2 : (0 : ℚ) ≤ if i = b ∧ j = a then d else 0 := by
    split_ifs
    · exact hd
    · exact le_refl 0
  have := h i j hij
  linarith

theorem depositTour_posOffDiag (Q : ℚ) (tau : ℕ → ℕ → ℚ) (tour : List ℕ)
    (L : ℚ) (hQ : 0 ≤ Q) (hL : 0 ≤ L) (h : PosOffDiag tau) :
    PosOffDiag (depositTour Q tau tour L) := by
  unfold depositTour
  exact foldl_preserve PosOffDiag _
    (fun t ab ht => depositEdge_posOffDiag t ab.1 ab.2 (Q / L)
      (div_nonneg hQ hL) ht) _ tau h

theorem depositAll_posOffDiag (Q : ℚ) (hQ : 0 ≤ Q) :
    ∀ (ts : List (List ℕ)) (Ls : List ℚ) (tau : ℕ → ℕ → ℚ),
    (∀ L ∈ Ls, 0 ≤ L) → PosOffDiag tau → PosOffDiag (depositAll Q tau ts Ls) := by
  intro ts
  induction ts with
  | nil => intro Ls tau _ h; cases Ls <;> exact h
  | cons t ts ih =>
    intro Ls tau hLs h
    cases Ls with
    | nil => exact h
    | cons L Ls =>
      exact ih Ls _ (fun x hx => hLs x (List.mem_cons_of_mem L hx))
        (depositTour_posOffDiag Q tau t L hQ
          (hLs L (List.mem_cons_self L Ls)) h)

/-- The engine-state side conditions under which the optimized and the
reference engines coincide: at least one city, positive persistence,
nonnegative deposit constant, a power function nonnegative everywhere and
positive on positive bases, nonnegative distances, visibility positive
between distinct cities, pheromone positive off the diagonal, and every
draw strictly inside (0,1). -/
def GoodEngine (s : EngineState) : Prop :=
  1 ≤ s.n ∧ 0 < s.p ∧ 0 ≤ s.Q ∧
  (∀ x y, 0 ≤ s.ops.fpow x y) ∧ (∀ x y, 0 < x → 0 < s.ops.fpow x y) ∧
  (∀ i j, 0 ≤ s.dist i j) ∧
  (∀ i j, i < s.n → j < s.n → i ≠ j → 0 < s.eta i j) ∧
  PosOffDiag s.tau ∧
  (∀ i, 0 < s.rngStream i ∧ s.rngStream i < 1)

theorem runCycle_good (s : EngineState) (h : GoodEngine s) :
    GoodEngine ((runCycle s).1) := by
  obtain ⟨hn, hp, hQ, hfpnn, hfpos, hdist, heta, htau, hstream⟩ := h
  obtain ⟨hops, hcoords, _, _, hpf, hQf, _, hdistf, hetaf, hstreamf⟩ :=
    runCycle_fixed s
  refine ⟨?_, ?_, ?_, ?_, ?_, ?_, ?_, ?_, ?_⟩
  · show 1 ≤ (runCycle s).1.coords.length
    rw [hcoords]
    exact hn
  · rw [hpf]; exact hp
  · rw [hQf]; exact hQ
  · rw [hops]; exact hfpnn
  · rw [hops]; exact hfpos
  · rw [hdistf]; exact hdist
  · show ∀ i j, i < (runCycle s).1.coords.length →
      j < (runCycle s).1.coords.length → i ≠ j → 0 < (runCycle s).1.eta i j
    rw [hcoords, hetaf]
    exact heta
  · rw [runCycle_tau]
    exact depositAll_posOffDiag s.Q hQ _ _ _
      (constructFrom_lengths_nonneg s hdist s.m 0 s.rngIdx)
      (fun i j hij => mul_pos (htau i j hij) hp)
  · rw [hstreamf]; exact hstream

theorem runCycleOpt_eq_of_good (choice : ChoiceFn) (s : EngineState)
    (h : GoodEngine s) : runCycleOpt choice s = runCycle s := by
  obtain ⟨hn, hp, hQ, hfpnn, hfpos, hdist, heta, htau, hstream⟩ := h
  exact runCycleOpt_eq choice s hn hfpnn
    (fun cur j hc hj hcj =>
      mul_pos (hfpos _ _ (htau cur j hcj)) (hfpos _ _ (heta cur j hc hj hcj)))
    hstream

theorem iter_eq_of_good (choice : ChoiceFn) (s : EngineState)
    (h : GoodEngine s) :
    ∀ k, iterOpt choice s k = iterRef s k ∧ GoodEngine (iterRef s k) := by
  intro k
  induction k with
  | zero => exact ⟨rfl, h⟩
  | succ k ih =>
    refine ⟨?_, runCycle_good _ ih.2⟩
    show (runCycleOpt choice (iterOpt choice s k)).1 = (runCycle (iterRef s k)).1
    rw [ih.1, runCycleOpt_eq_of_good choice _ ih.2]

theorem sq_sum_pos_of_ne (p q : ℚ × ℚ) (h : p ≠ q) :
    0 < (p.1 - q.1) ^ 2 + (p.2 - q.2) ^ 2 := by
  by_cases hx : p.1 = q.1
  · have hy : p.2 ≠ q.2 := by
      intro hy
      exact h (Prod.ext hx hy)
    have : p.2 - q.2 ≠ 0 := sub_ne_zero.2 hy
    have h2 := pow_two_pos_of_ne_zero this
    have h1 : (0 : ℚ) ≤ (p.1 - q.1) ^ 2 := sq_nonneg _
    linarith
  · have : p.1 - q.1 ≠ 0 := sub_ne_zero.2 hx
    have h1 := pow_two_pos_of_ne_zero this
    have h2 : (0 : ℚ) ≤ (p.2 - q.2) ^ 2 := sq_nonneg _
    linarith

/-- The vectorized distance/visibility builders agree with the loop-based
ones, given only sqrt 0 = 0; hence the two constructors produce the same
engine state. -/
theorem mkEngineOpt_eq (ops : NumOps) (coords : List (ℚ × ℚ))
    (alpha beta p Q : ℚ) (mo : Option ℕ) (stream : ℕ → ℚ)
    (hsq0 : ops.sqrt 0 = 0) :
    distMatrixOpt ops coords = distMatrix ops coords ∧
    etaMatrixOpt (distMatrixOpt ops coords) = etaMatrix (distMatrix ops coords) ∧
    mkEngineOpt ops coords alpha beta p Q mo stream
      = mkEngine ops coords alpha beta p Q mo stream := by
  have hd : distMatrixOpt ops coords = distMatrix ops coords := by
    funext i j
    unfold distMatrixOpt distMatrix
    by_cases h : i = j
    · subst h
      rw [if_pos rfl]
      simpa using hsq0
    · rw [if_neg h]
      congr 1
      ring
  have he : etaMatrixOpt (distMatrixOpt ops coords)
      = etaMatrix (distMatrix ops coords) := by
    rw [hd]
    funext i j
    unfold etaMatrixOpt etaMatrix
    by_cases h : i = j
    · subst h
      have hz : distMatrix ops coords i i = 0 := by
        unfold distMatrix
        rw [if_pos rfl]
      rw [hz]
      simp
    · by_cases hpos : 0 < distMatrix ops coords i j
      · rw [if_pos hpos, if_pos ⟨h, hpos⟩]
      · rw [if_neg hpos, if_neg (fun hc => hpos hc.2)]
  refine ⟨hd, he, ?_⟩
  have he2 : etaMatrixOpt (distMatrix ops coords)
      = etaMatrix (distMatrix ops coords) := by
    conv_lhs => rw [← hd]
    exact he
  unfold mkEngineOpt mkEngine
  dsimp only
  rw [hd, he2]

theorem mkEngine_good (ops : NumOps) (coords : List (ℚ × ℚ))
    (alpha beta p Q : ℚ) (mo : Option ℕ) (stream : ℕ → ℚ)
    (hsqnn : ∀ x, 0 ≤ x → 0 ≤ ops.sqrt x)
    (hsqpos : ∀ x, 0 < x → 0 < ops.sqrt x)
    (hfpnn : ∀ x y, 0 ≤ ops.fpow x y)
    (hfpos : ∀ x y, 0 < x → 0 < ops.fpow x y)
    (hp : 0 < p) (hQ : 0 ≤ Q) (hn : 1 ≤ coords.length)
    (hcoords : ∀ i j, i < coords.length → j < coords.length → i ≠ j →
      coordAt coords i ≠ coordAt coords j)
    (hstream : ∀ i, 0 < stream i ∧ stream i < 1) :
    GoodEngine (mkEngine ops coords alpha beta p Q mo stream) := by
  have hdist : ∀ i j, 0 ≤ distMatrix ops coords i j := by
    intro i j
    unfold distMatrix
    split_ifs
    · exact le_refl 0
    · exact hsqnn _ (by positivity)
  refine ⟨hn, hp, hQ, hfpnn, hfpos, hdist, ?_, ?_, hstream⟩
  · intro i j hi hj hij
    have hne := hcoords j i hj hi (Ne.symm hij)
    have hpos : 0 < distMatrix ops coords i j := by
      unfold distMatrix
      rw [if_neg hij]
      exact hsqpos _ (sq_sum_pos_of_ne _ _ hne)
    show 0 < etaMatrix (distMatrix ops coords) i j
    unfold etaMatrix
    rw [if_pos ⟨hij, hpos⟩]
    exact one_div_pos.2 hpos
  · intro i j hij
    show 0 < initPheromones i j
    unfold initPheromones
    rw [if_neg hij]
    exact zero_lt_one

/-- C5 counterexample: with identical coordinates, hyperparameters and draw
stream (the second draw being exactly 0.0, a value rng.random can return),
the optimized engine and the reference engine construct different tours in
their very first cycle: the optimized searchsorted over the full masked
cumulative distribution selects the already-visited city 0 (its cumulative
value 0 meets the draw 0), giving the invalid tour [0,1,0,0], while the
reference engine builds [0,1,2,0]. -/
theorem spec_refinement_counterexample :
    (constructToursOpt (fun _ i _ => (0, i))
        (mkEngineOpt ⟨fun x => x, fun x _ => x⟩ [(0, 0), (1, 0), (2, 0)]
          1 1 (1/2) 100 (some 1) (fun i => if i = 0 then 1/2 else 0))).1
      ≠ (constructTours
        (mkEngine ⟨fun x => x, fun x _ => x⟩ [(0, 0), (1, 0), (2, 0)]
          1 1 (1/2) 100 (some 1) (fun i => if i = 0 then 1/2 else 0))).1 := by
  norm_num [constructToursOpt, constructTours, constructFromOpt, constructFrom,
    buildTourOpt, buildTour, buildOptAux, buildAux, optStep, tourStep,
    unvisitedOf, searchsortedLeft, cumsum, cumsumFrom, mkEngineOpt, mkEngine,
    distMatrixOpt, distMatrix, etaMatrixOpt, etaMatrix, initPheromones,
    coordAt, EngineState.n, List.range, List.range.loop, List.filter,
    List.countP, List.countP.go]
  simp only [Bool.cond_eq_if]
  split_ifs <;> simp_all

/-- C5 amended: the two engines always build the same distance and
visibility matrices (sqrt 0 = 0 is the only float fact needed), and they
produce the same states — tours, lengths, pheromone matrix, best-global
pair — and the same statistics, cycle for cycle, PROVIDED the cities are
pairwise distinct, the persistence is positive, the deposit constant
nonnegative, powers of positive numbers positive, and every uniform draw
lies strictly inside (0,1).  (When a draw is exactly 0.0, or when a
zero-score step makes the optimized engine call rng.choice — a different
consumption of the generator — the two engines can diverge, as the
counterexample shows.) -/
theorem spec_refinement_amended (ops : NumOps) (coords : List (ℚ × ℚ))
    (alpha beta p Q : ℚ) (mo : Option ℕ) (stream : ℕ → ℚ) (choice : ChoiceFn)
    (hsq0 : ops.sqrt 0 = 0)
    (hsqnn : ∀ x, 0 ≤ x → 0 ≤ ops.sqrt x)
    (hsqpos : ∀ x, 0 < x → 0 < ops.sqrt x)
    (hfpnn : ∀ x y, 0 ≤ ops.fpow x y)
    (hfpos : ∀ x y, 0 < x → 0 < ops.fpow x y)
    (hp : 0 < p) (hQ : 0 ≤ Q) (hn : 1 ≤ coords.length)
    (hcoords : ∀ i j, i < coords.length → j < coords.length → i ≠ j →
      coordAt coords i ≠ coordAt coords j)
    (hstream : ∀ i, 0 < stream i ∧ stream i < 1) :
    (∀ i j, distMatrixOpt ops coords i j = distMatrix ops coords i j) ∧
    (∀ i j, etaMatrixOpt (distMatrixOpt ops coords) i j
        = etaMatrix (distMatrix ops coords) i j) ∧
    (∀ k, iterOpt choice (mkEngineOpt ops coords alpha beta p Q mo stream) k
        = iterRef (mkEngine ops coords alpha beta p Q mo stream) k) ∧
    (∀ k, (runCycleOpt choice
        (iterOpt choice (mkEngineOpt ops coords alpha beta p Q mo stream) k)).2
        = (runCycle (iterRef (mkEngine ops coords alpha beta p Q mo stream) k)).2) ∧
    (∀ k, constructToursOpt choice
        (iterOpt choice (mkEngineOpt ops coords alpha beta p Q mo stream) k)
        = constructTours (iterRef (mkEngine ops coords alpha beta p Q mo stream) k)) := by
  obtain ⟨hd, he, hmk⟩ := mkEngineOpt_eq ops coords alpha beta p Q mo stream hsq0
  have hgood := mkEngine_good ops coords alpha beta p Q mo stream
    hsqnn hsqpos hfpnn hfpos hp hQ hn hcoords hstream
  have hiter := iter_eq_of_good choice
    (mkEngine ops coords alpha beta p Q mo stream) hgood
  have hstates : ∀ k,
      iterOpt choice (mkEngineOpt ops coords alpha beta p Q mo stream) k
        = iterRef (mkEngine ops coords alpha beta p Q mo stream) k := by
    intro k
    rw [hmk]
    exact (hiter k).1
  refine ⟨fun i j => congrFun (congrFun hd i) j,
    fun i j => congrFun (congrFun he i) j, hstates, ?_, ?_⟩
  · intro k
    rw [hstates k, runCycleOpt_eq_of_good choice _ (hiter k).2]
  · intro k
    rw [hstates k]
    obtain ⟨hkn, _, _, hkfpnn, hkfpos, _, hketa, hktau, hkstream⟩ := (hiter k).2
    exact constructFromOpt_eq choice _ hkn hkfpnn
      (fun cur j hc hj hcj =>
        mul_pos (hkfpos _ _ (hktau cur j hcj))
          (hkfpos _ _ (hketa cur j hc hj hcj)))
      hkstream _ 0 _

/-- Witness for C5 (amended) at a concrete 2-city engine with sqrt = id and
a constant-one power function. -/
theorem spec_refinement_amended_witness :
    (∀ i j, distMatrixOpt ⟨fun x => x, fun _ _ => 1⟩ [(0, 0), (3, 4)] i j
        = distMatrix ⟨fun x => x, fun _ _ => 1⟩ [(0, 0), (3, 4)] i j) ∧
    (∀ i j, etaMatrixOpt (distMatrixOpt ⟨fun x => x, fun _ _ => 1⟩ [(0, 0), (3, 4)]) i j
        = etaMatrix (distMatrix ⟨fun x => x, fun _ _ => 1⟩ [(0, 0), (3, 4)]) i j) ∧
    (∀ k, iterOpt (fun _ i _ => (0, i))
        (mkEngineOpt ⟨fun x => x, fun _ _ => 1⟩ [(0, 0), (3, 4)] 1 5 (1/2) 100
          none (fun _ => 1/2)) k
        = iterRef (mkEngine ⟨fun x => x, fun _ _ => 1⟩ [(0, 0), (3, 4)] 1 5 (1/2) 100
          none (fun _ => 1/2)) k) ∧
    (∀ k, (runCycleOpt (fun _ i _ => (0, i))
        (iterOpt (fun _ i _ => (0, i))
          (mkEngineOpt ⟨fun x => x, fun _ _ => 1⟩ [(0, 0), (3, 4)] 1 5 (1/2) 100
            none (fun _ => 1/2)) k)).2
        = (runCycle (iterRef
          (mkEngine ⟨fun x => x, fun _ _ => 1⟩ [(0, 0), (3, 4)] 1 5 (1/2) 100
            none (fun _ => 1/2)) k)).2) ∧
    (∀ k, constructToursOpt (fun _ i _ => (0, i))
        (iterOpt (fun _ i _ => (0, i))
          (mkEngineOpt ⟨fun x => x, fun _ _ => 1⟩ [(0, 0), (3, 4)] 1 5 (1/2) 100
            none (fun _ => 1/2)) k)
        = constructTours (iterRef
          (mkEngine ⟨fun x => x, fun _ _ => 1⟩ [(0, 0), (3, 4)] 1 5 (1/2) 100
            none (fun _ => 1/2)) k)) :=
  spec_refinement_amended ⟨fun x => x, fun _ _ => 1⟩ [(0, 0), (3, 4)]
    1 5 (1/2) 100 none (fun _ => 1/2) (fun _ i _ => (0, i))
    rfl (fun _ h => h) (fun _ h => h)
    (fun _ _ => zero_le_one) (fun _ _ _ => zero_lt_one)
    (by norm_num) (by norm_num) (by decide)
    (by
      intro i j hi hj hij
      simp only [List.length_cons, List.length_nil] at hi hj
      interval_cases i <;> interval_cases j <;>
        simp_all [coordAt, Prod.ext_iff] <;> norm_num)
    (fun _ => ⟨by norm_num, by norm_num⟩)

end ACO
